import Mathlib

/-!
Verification development for the path-oriented inotify watcher
(`inotify/pathwatcher.py` and `inotify/pathresolver.py`).

The Python source is shallowly embedded: paths become explicit segment
lists, the filesystem and the kernel inotify facility become explicit
finite maps, mutable objects become records threaded through the
operations, and generators become eagerly computed yield lists (the
symlink counter visible at each lazily produced yield is recorded with
the yield, so the laziness of the source generator is preserved
observationally).
-/

namespace PathWatcherModel

/-! ## Kernel event-mask constants (Linux inotify ABI, consumed by the code) -/

def IN_ACCESS : Nat := 1
def IN_MODIFY : Nat := 2
def IN_ATTRIB : Nat := 4
def IN_CLOSE_WRITE : Nat := 8
def IN_CLOSE_NOWRITE : Nat := 16
def IN_OPEN : Nat := 32
def IN_MOVED_FROM : Nat := 64
def IN_MOVED_TO : Nat := 128
def IN_CREATE : Nat := 256
def IN_DELETE : Nat := 512
def IN_DELETE_SELF : Nat := 1024
def IN_MOVE_SELF : Nat := 2048
def IN_UNMOUNT : Nat := 8192
def IN_Q_OVERFLOW : Nat := 16384
def IN_IGNORED : Nat := 32768
def IN_ONLYDIR : Nat := 16777216
def IN_DONT_FOLLOW : Nat := 33554432
def IN_EXCL_UNLINK : Nat := 67108864
def IN_MASK_ADD : Nat := 536870912
def IN_ISDIR : Nat := 1073741824
def IN_ONESHOT : Nat := 2147483648

def IN_MOVE : Nat := IN_MOVED_FROM ||| IN_MOVED_TO
def IN_CLOSE : Nat := IN_CLOSE_WRITE ||| IN_CLOSE_NOWRITE

/-- Modelled from the spec: the synthetic `IN_PATH_*` flags are defined in
the C extension module, which is not part of the Python sources; the spec
says they occupy bit positions strictly above the largest kernel-defined
flag, allocated by doubling. -/
def IN_PATH_MOVED_FROM : Nat := 4294967296

def IN_PATH_MOVED_TO : Nat := 2 * IN_PATH_MOVED_FROM
def IN_PATH_CREATE : Nat := 4 * IN_PATH_MOVED_FROM
def IN_PATH_DELETE : Nat := 8 * IN_PATH_MOVED_FROM
def IN_PATH_UNMOUNT : Nat := 16 * IN_PATH_MOVED_FROM
def IN_PATH_CHANGED : Nat :=
  IN_PATH_MOVED_FROM ||| IN_PATH_MOVED_TO ||| IN_PATH_CREATE |||
  IN_PATH_DELETE ||| IN_PATH_UNMOUNT

/-! ## Paths

A `pathlib.PosixPath` is embedded as an absoluteness flag plus the list
of its non-root parts.  `PosixPath('.')` is `⟨false, []⟩`, `PosixPath('/')`
is `⟨true, []⟩`. -/

structure PPath where
  isAbs : Bool
  segs : List String
deriving DecidableEq, Repr

def rootPP : PPath := ⟨true, []⟩

def curdirPP : PPath := ⟨false, []⟩

/-- Path indexing `p[name]` of the old pathlib library. -/
def PPath.child (p : PPath) (s : String) : PPath := ⟨p.isAbs, p.segs ++ [s]⟩

/-- Path join `p[rest]` with a relative suffix. -/
def PPath.joinRel (p : PPath) (rest : List String) : PPath :=
  ⟨p.isAbs, p.segs ++ rest⟩

/-- The `parent()` method of the old pathlib library. -/
def PPath.parentP (p : PPath) : PPath := ⟨p.isAbs, p.segs.dropLast⟩

/-- String rendering, mirroring `str(PosixPath(...))`. -/
def ppStr (p : PPath) : String :=
  if p.isAbs then String.append "/" (String.intercalate "/" p.segs)
  else if p.segs = [] then "." else String.intercalate "/" p.segs

/-- OS-level normalization of an absolute segment list: `..` pops a
segment and `/..` stays at `/`; this is what the operating system does
when it resolves a (symlink-free) path handed to a system call. -/
def osNorm (segs : List String) : List String :=
  segs.foldl
    (fun acc s => if s = "." then acc else if s = ".." then acc.dropLast else acc ++ [s]) []

/-- Denotation of a possibly relative path against the ambient working
directory: this is the absolute location the OS would use. -/
def ppDen (cwdN : List String) (p : PPath) : List String :=
  if p.isAbs then p.segs else cwdN ++ p.segs

/-! ## Association lists (used for all the dictionaries of the source) -/

def alGet {α β : Type} [DecidableEq α] : List (α × β) → α → Option β
  | [], _ => none
  | e :: t, k => if e.1 = k then some e.2 else alGet t k

def alSet {α β : Type} [DecidableEq α] : List (α × β) → α → β → List (α × β)
  | [], k, v => [(k, v)]
  | e :: t, k, v => if e.1 = k then (k, v) :: t else e :: alSet t k v

def alRemove {α β : Type} [DecidableEq α] : List (α × β) → α → List (α × β)
  | [], _ => []
  | e :: t, k => if e.1 = k then t else e :: alRemove t k

/-- Removal of the first matching element (`list.remove` of Python). -/
def removeFirstBy {α : Type} (p : α → Bool) : List α → List α
  | [] => []
  | a :: t => if p a then t else a :: removeFirstBy p t

/-! ## Filesystem model

The filesystem is a static finite map from OS-normalized absolute
segment lists to nodes.  The root `[]` is implicitly a directory. -/

inductive FsNode where
  | file : FsNode
  | dir : FsNode
  | symlink : PPath → FsNode
deriving DecidableEq, Repr

abbrev Fs := List (List String × FsNode)

def fsGet (fs : Fs) (cwdN : List String) (p : PPath) : Option FsNode :=
  let key := osNorm (ppDen cwdN p)
  if key = [] then some .dir else alGet fs key

def isDirFs (fs : Fs) (cwdN : List String) (p : PPath) : Bool :=
  fsGet fs cwdN p = some .dir

def existsFs (fs : Fs) (cwdN : List String) (p : PPath) : Bool :=
  (fsGet fs cwdN p).isSome

/-- Outcome of `os.readlink(str(location[first]))` on the static
filesystem, with the errno classification relevant to the resolver:
`notLink` is `EINVAL`, `missing` is `ENOENT`, `notDirErr` is `ENOTDIR`. -/
inductive RlRes where
  | notLink : RlRes
  | missing : RlRes
  | notDirErr : RlRes
  | target : PPath → RlRes
deriving DecidableEq, Repr

def readlinkM (fs : Fs) (cwdN : List String) (location : PPath) (first : String) : RlRes :=
  if ¬ isDirFs fs cwdN location then
    (if existsFs fs cwdN location then .notDirErr else .missing)
  else
    match fsGet fs cwdN (location.child first) with
    | none => .missing
    | some .file => .notLink
    | some .dir => .notLink
    | some (.symlink t) => .target t

/-! ## The symlink resolver (`pathresolver.resolve_symlink`)

The generator is embedded as a function producing the list of yielded
`(location, remaining)` pairs, each paired with the value the shared
symlink counter has at the moment the consumer receives that yield, plus
the terminating error, if any.  The source lazily re-yields the results
of a recursive call shifted by one pull, which is why a re-yielded pair
carries the counter value of the *next* pair of the inner generator. -/

inductive RErr where
  | fileNotFound : PPath → RErr
  | notADirectory : PPath → RErr
  | concurrentMod : PPath → RErr
  | symlinkLoop : PPath → RErr
  | fuelOut : RErr
deriving DecidableEq, Repr

structure RYield where
  loc : PPath
  rest : List String
  cnt : Nat
deriving DecidableEq, Repr

structure ROut where
  yields : List RYield
  err : Option RErr
  known : List (PPath × PPath)
  cnt : Nat
deriving DecidableEq, Repr

/-- Re-yielding of an inner generator's results with the parent's
remaining suffix appended corresponds to the source loop
`for loc, link in resolve_symlink(...): if lastloc: yield lastloc, lastlink[link_contents]`:
all but the last inner pair are emitted, and because the parent pulls the
next inner pair before emitting the previous one, the emitted pair is
seen with the symlink counter of the next inner pair. -/
def shiftJoin (ys : List RYield) (restP : List String) : List RYield :=
  List.zipWith (fun y ynext => ⟨y.loc, y.rest ++ restP, ynext.cnt⟩) ys (ys.drop 1)

def resolveSymlink (fs : Fs) (cwdN : List String) :
    Nat → PPath → PPath → List PPath → List (PPath × PPath) → Nat → ROut
  | 0, _, _, _, known, cnt => ⟨[], some .fuelOut, known, cnt⟩
  | fuel + 1, location0, contents, active, known, cnt =>
    let location := if contents.isAbs then rootPP else location0
    match contents.segs with
    | [] => ⟨[⟨location, [], cnt⟩], none, known, cnt⟩
    | first :: restP =>
      let yld : RYield := ⟨location, first :: restP, cnt⟩
      if first = ".." then
        -- pop a segment of the directory; a location consisting only of
        -- `/` and `..` parts grows a `..` part for OS parity
        let locn := if location.segs.all (fun s => s = "..") then location.child ".."
                    else location.parentP
        let r := resolveSymlink fs cwdN fuel locn ⟨false, restP⟩ active known cnt
        ⟨yld :: r.yields, r.err, r.known, r.cnt⟩
      else
        let nextpath := location.child first
        match readlinkM fs cwdN location first with
        | .notLink =>
          let r := resolveSymlink fs cwdN fuel nextpath ⟨false, restP⟩ active known cnt
          ⟨yld :: r.yields, r.err, r.known, r.cnt⟩
        | .missing => ⟨[yld], some (.fileNotFound nextpath), known, cnt⟩
        | .notDirErr =>
          if ¬ isDirFs fs cwdN location then ⟨[yld], some (.notADirectory location), known, cnt⟩
          else ⟨[yld], some (.concurrentMod nextpath), known, cnt⟩
        | .target newlink =>
          if nextpath ∈ active then ⟨[yld], some (.symlinkLoop nextpath), known, cnt⟩
          else
            match alGet known nextpath with
            | some cached =>
              let r := resolveSymlink fs cwdN fuel cached ⟨false, restP⟩ active known cnt
              ⟨yld :: r.yields, r.err, r.known, r.cnt⟩
            | none =>
              let sub := resolveSymlink fs cwdN fuel location newlink
                (nextpath :: active) known (cnt + 1)
              let emitted := shiftJoin sub.yields restP
              match sub.err with
              | some e => ⟨yld :: emitted, some e, sub.known, sub.cnt⟩
              | none =>
                match sub.yields.getLast? with
                | none => ⟨yld :: emitted, some .fuelOut, sub.known, sub.cnt⟩
                | some last =>
                  let r := resolveSymlink fs cwdN fuel last.loc ⟨false, restP⟩ active
                    ((nextpath, last.loc) :: sub.known) sub.cnt
                  ⟨yld :: (emitted ++ r.yields), r.err, r.known, r.cnt⟩

/-! ## Watcher data model (`pathwatcher.py`)

Mutable Python objects become records; object identity of `_Link`
instances is modelled by a unique `lid` allocated from a watcher-level
counter, and the back references `_Link.watch` / `_Link.wd` become the
owning PathWatch's key and the kernel watch-descriptor id. -/

structure Link where
  lid : Nat
  idx : Nat
  mask : Nat
  path : PPath
  name : Option String
  rest : List String
  linkcount : Option Nat
  wd : Option Nat
deriving DecidableEq, Repr

/-- One registered callback of a `_Descriptor`: the owning PathWatch's
key, the link's identity and the link's mask (`_Descriptor.callbacks`
stores the `_Link` objects themselves; the fields recorded here are the
ones dispatch reads). -/
structure CbEntry where
  watchKey : PPath
  lid : Nat
  mask : Nat
deriving DecidableEq, Repr

structure Descriptor where
  wd : Nat
  mask : Nat
  active : Bool
  callbacks : List (Option String × List CbEntry)
deriving DecidableEq, Repr

structure PathWatch where
  path : PPath
  mask : Nat
  links : List Link
  watch_complete : Nat
  cwd : Option (List String)
deriving DecidableEq, Repr

/-- The kernel inotify instance: a map from the resolved path of each
live watch to its watch descriptor id, plus the monotonic id source.
`add_watch` on a path already watched returns the same descriptor
(inode-stable), `remove_watch` kills the watch so a later `add_watch`
allocates a fresh id. -/
structure Kernel where
  table : List (List String × Nat)
  next : Nat
deriving DecidableEq, Repr

structure Watcher where
  paths : List (PPath × PathWatch)
  descrs : List (Nat × Descriptor)
  pending : Int
  reconnect : List PPath
  kernel : Kernel
  nextLid : Nat
  removeLog : List Nat
deriving DecidableEq, Repr

def emptyWatcher : Watcher := ⟨[], [], 0, [], ⟨[], 1⟩, 0, []⟩

/-- Ambient execution environment: the (static) filesystem, the current
working directory of the process, the probed system symlink maximum and
the recursion budget of the embedded resolver. -/
structure Env where
  fs : Fs
  cwdN : List String
  symlinkmax : Nat
  fuel : Nat

def setPW (w : Watcher) (key : PPath) (pw : PathWatch) : Watcher :=
  { w with paths := alSet w.paths key pw }

def modPW (w : Watcher) (key : PPath) (f : PathWatch → PathWatch) : Watcher :=
  match alGet w.paths key with
  | none => w
  | some pw => setPW w key (f pw)

def setWC (w : Watcher) (key : PPath) (v : Nat) : Watcher :=
  modPW w key (fun pw => { pw with watch_complete := v })

/-! ## Kernel and descriptor operations -/

/-- `inotify.add_watch(fd, str(path), mask | IN_MASK_ADD)`. -/
def kernelAddWatch (env : Env) (k : Kernel) (loc : PPath) : Nat × Kernel :=
  let key := osNorm (ppDen env.cwdN loc)
  match alGet k.table key with
  | some wd => (wd, k)
  | none => (k.next, ⟨alSet k.table key k.next, k.next + 1⟩)

/-- `_Descriptor.register_link`. -/
def descrRegister (d : Descriptor) (name : Option String) (e : CbEntry) : Descriptor :=
  { d with
    mask := d.mask ||| e.mask,
    callbacks := alSet d.callbacks name ((alGet d.callbacks name).getD [] ++ [e]) }

/-- `PathWatcher._createwatch`: obtain the descriptor for `loc` from the
kernel, creating the `_Descriptor` record if needed, and register the
link with it. -/
def createwatch (env : Env) (w : Watcher) (loc : PPath) (name : Option String)
    (e : CbEntry) : Nat × Watcher :=
  let r := kernelAddWatch env w.kernel loc
  let d := (alGet w.descrs r.1).getD ⟨r.1, 0, true, []⟩
  let d2 := descrRegister d name e
  (r.1, { w with kernel := r.2, descrs := alSet w.descrs r.1 d2 })

/-- `PathWatcher._signal_empty_watch`: issue the kernel removal if the
descriptor is still active and count the pending `IN_IGNORED` ack. -/
def signalEmpty (w : Watcher) (d : Descriptor) : Watcher :=
  let w2 :=
    if d.active then
      { w with
        removeLog := w.removeLog ++ [d.wd],
        kernel := { w.kernel with table := w.kernel.table.filter (fun e => e.2 ≠ d.wd) } }
    else w
  { w2 with pending := w2.pending + 1 }

/-- `_Link.remove` followed by `_Descriptor.remove_link`. -/
def linkRemoveW (w : Watcher) (link : Link) : Watcher :=
  match link.wd with
  | none => w
  | some wd =>
    match alGet w.descrs wd with
    | none => w
    | some d =>
      match alGet d.callbacks link.name with
      | none => w
      | some entries =>
        let entries2 := removeFirstBy (fun e => e.lid = link.lid) entries
        let cbs := if entries2 = [] then alRemove d.callbacks link.name
                   else alSet d.callbacks link.name entries2
        let d2 := { d with callbacks := cbs }
        let w2 := { w with descrs := alSet w.descrs wd d2 }
        if d2.callbacks = [] then signalEmpty w2 d2 else w2

/-! ## PathWatch link-chain operations -/

/-- Creation of a `_Link` (its `__init__` calls `_createwatch`) and its
placement at the end of the PathWatch's chain. -/
def addLinkW (env : Env) (w : Watcher) (key : PPath) (mask : Nat) (loc : PPath)
    (name : Option String) (rest : List String) (lc : Option Nat) : Watcher :=
  match alGet w.paths key with
  | none => w
  | some pw =>
    let lid := w.nextLid
    let r := createwatch env { w with nextLid := w.nextLid + 1 } loc name ⟨key, lid, mask⟩
    let link : Link := ⟨lid, pw.links.length, mask, loc, name, rest, lc, some r.1⟩
    setPW r.2 key { pw with links := pw.links ++ [link] }

/-- `_PathWatch.add_leaf`. -/
def addLeafW (env : Env) (w : Watcher) (key : PPath) (loc : PPath) : Watcher :=
  match alGet w.paths key with
  | none => w
  | some pw => addLinkW env w key pw.mask loc none [] none

/-- The intermediate-link mask chosen by `_PathWatch.add_path_element`. -/
def intermediateMask (head : String) : Nat :=
  let base := IN_UNMOUNT ||| IN_ONLYDIR ||| IN_EXCL_UNLINK ||| IN_IGNORED
  if head = ".." then base ||| IN_MOVE_SELF ||| IN_DELETE_SELF
  else base ||| IN_MOVE ||| IN_DELETE ||| IN_CREATE

/-- `_PathWatch.add_path_element`. -/
def addPathElementW (env : Env) (w : Watcher) (key : PPath) (loc : PPath)
    (rest : List String) (lc : Nat) : Watcher :=
  match rest with
  | [] => w
  | head :: _ =>
    addLinkW env w key (intermediateMask head) loc
      (if head = ".." then none else some head) rest (some lc)

/-- `_PathWatch._poplinks_from`. -/
def poplinksFrom (w : Watcher) (key : PPath) (startidx : Nat) : Watcher :=
  match alGet w.paths key with
  | none => w
  | some pw =>
    if startidx ≥ pw.links.length then w
    else
      let w2 := (pw.links.drop startidx).foldl linkRemoveW w
      modPW w2 key (fun pw2 =>
        { pw2 with watch_complete := min 1 pw2.watch_complete,
                   links := pw2.links.take startidx })

/-- `_PathWatch._register_reconnect` (the Watcher's `_reconnect` set is
kept as a duplicate-free list). -/
def registerReconnectW (w : Watcher) (key : PPath) : Watcher :=
  let w2 := modPW w key (fun pw => { pw with watch_complete := 0 })
  { w2 with reconnect := if key ∈ w2.reconnect then w2.reconnect else w2.reconnect ++ [key] }

/-! ## Reconnection (`_PathWatch.reconnect`) -/

/-- The resolver starting state of a reconnect: either the last link's
`(path, rest, linkcount)` or the recorded working directory (`'.'` when
`remember_curdir` was disabled) and the full user path. -/
def reconnectStart (pw : PathWatch) : PPath × PPath × Nat :=
  match pw.links.getLast? with
  | some l => (l.path, ⟨false, l.rest⟩, l.linkcount.getD 0)
  | none =>
    ((match pw.cwd with
      | some c => ⟨true, c⟩
      | none => curdirPP), pw.path, 0)

/-- The resolver output a reconnect of `pw` consumes: the yielded pairs
(with the first one dropped when resuming from an existing link) and the
terminating error, if any. -/
def reconnectOutcome (env : Env) (pw : PathWatch) : List RYield × Option RErr :=
  let s := reconnectStart pw
  let r := resolveSymlink env.fs env.cwdN env.fuel s.1 s.2.1 [] [] s.2.2
  ((if pw.links.isEmpty then r.yields else r.yields.drop 1), r.err)

/-- Consumption of the resolver's yields by `reconnect`: each pair first
has the symlink budget checked — exceeding it raises
`SymlinkLoopError(str(self.path))` — a pair with empty remainder ends
resolution (`add_leaf`, `watch_complete = 2`), any other pair becomes an
intermediate link.  An exhausted generator ends with its error: a
concurrent-modification fault is caught by exception type and silently
returns with `watch_complete` still 0 (an exhausted recursion budget of
the embedding is treated the same way), while the resolver's custom
`FileNotFoundError`/`NotADirectoryError`/`SymlinkLoopError` escape the
errno handler: their constructors pass the message as the first
`OSError` argument, so `.errno` holds the message string, never matching
the integer tuple, and the handler re-raises.  The second component is
the exception escaping `reconnect`; the first is the watcher after the
mutations performed so far (they persist when the exception escapes). -/
def consumeYields (env : Env) (w : Watcher) (key : PPath) :
    List RYield → Option RErr → Watcher × Option RErr
  | [], err =>
    match err with
    | some (.concurrentMod _) => (w, none)
    | some .fuelOut => (w, none)
    | some e => (w, some e)
    | none => (w, none)
  | y :: ys, err =>
    if y.cnt > env.symlinkmax then (w, some (.symlinkLoop key))
    else if y.rest = [] then (setWC (addLeafW env w key y.loc) key 2, none)
    else consumeYields env (addPathElementW env w key y.loc y.rest y.cnt) key ys err

/-- `_PathWatch.reconnect`, run against the stored entry at `key`: the
second component is the exception escaping it. -/
def pwReconnect (env : Env) (w : Watcher) (key : PPath) : Watcher × Option RErr :=
  match alGet w.paths key with
  | none => (w, none)
  | some pw =>
    if pw.watch_complete ≠ 0 then (w, none)
    else
      let o := reconnectOutcome env pw
      consumeYields env w key o.1 o.2

/-- The member loop of `PathWatcher._do_reconnect`: an exception
escaping one member's reconnect aborts the loop, stranding the remaining
swapped-out members outside the work-set. -/
def doReconnectGo (env : Env) : List PPath → Watcher → Watcher × Option RErr
  | [], acc => (acc, none)
  | k :: t, acc =>
    match pwReconnect env acc k with
    | (acc2, some e) => (acc2, some e)
    | (acc2, none) => doReconnectGo env t acc2

/-- `PathWatcher._do_reconnect`: swap the work-set out and reconnect each
member; the second component is the exception escaping the pass. -/
def doReconnectX (env : Env) (w : Watcher) : Watcher × Option RErr :=
  doReconnectGo env w.reconnect { w with reconnect := [] }

/-- The watcher state after a `_do_reconnect` pass (also when an
exception escapes it). -/
def doReconnectW (env : Env) (w : Watcher) : Watcher := (doReconnectX env w).1

/-! ## Public operations of `PathWatcher` -/

def updCwd (env : Env) (pw : PathWatch) (rc : Option Bool) : PathWatch :=
  match rc with
  | some true => { pw with cwd := some env.cwdN }
  | some false => { pw with cwd := none }
  | none => pw

/-- The mask arithmetic of `_PathWatch.update`: note that the source
applies `&=` when `IN_MASK_ADD` is set. -/
def pwUpdateMask (m newmask : Nat) : Nat :=
  if newmask &&& IN_MASK_ADD ≠ 0 then m &&& newmask else newmask

/-- `_PathWatch.update` (also the body of the public
`PathWatcher.update`): update the recorded working directory, replace the
stored mask, and if the path is fully watched rotate the leaf link:
pop it, build the new leaf on the same location, then release the old
leaf. -/
def pwUpdate (env : Env) (w : Watcher) (key : PPath) (newmask : Nat)
    (rc : Option Bool) : Watcher :=
  match alGet w.paths key with
  | none => w
  | some pw =>
    let pw2 := updCwd env pw rc
    if newmask = 0 then setPW w key pw2
    else
      let pw3 := { pw2 with mask := pwUpdateMask pw2.mask newmask }
      let w3 := setPW w key pw3
      if pw3.watch_complete = 2 then
        match pw3.links.getLast? with
        | none => w3
        | some old =>
          let w4 := setPW w3 key { pw3 with links := pw3.links.dropLast }
          let w5 := addLeafW env w4 key old.path
          linkRemoveW w5 old
      else w3

/-- The `_PathWatch` constructor: record the working directory (the
`remember_curdir = None` default behaves like `True`) with
`watch_complete = 0`; `__init__` then calls `reconnect` at once. -/
def mkPathWatch (env : Env) (path : PPath) (mask : Nat) (rc : Option Bool) : PathWatch :=
  { path := path, mask := mask, links := [], watch_complete := 0,
    cwd := match rc with
           | some false => none
           | _ => some env.cwdN }

/-- `PathWatcher.add`: an already watched path is updated (and the call
falls off the method without a return value); for a new path the
`_PathWatch` is constructed — its `__init__` runs `reconnect` — before
the assignment into `_paths` executes, so when the construction raises,
nothing is stored under the path (the `alRemove` rolls the staged entry
back) while the descriptor-side mutations of the partial reconnect
persist.  The second component is the exception escaping `add`. -/
def watcherAddFull (env : Env) (w : Watcher) (path : PPath) (mask : Nat)
    (rc : Option Bool) : (Option String × Watcher) × Option RErr :=
  match alGet w.paths path with
  | some _ => ((none, pwUpdate env w path mask rc), none)
  | none =>
    let w2 := setPW w path (mkPathWatch env path mask rc)
    let r := pwReconnect env w2 path
    match r.2 with
    | none => ((some (ppStr path), r.1), none)
    | some e => ((none, { r.1 with paths := alRemove r.1.paths path }), some e)

/-- The return value and watcher state of `PathWatcher.add`. -/
def watcherAdd (env : Env) (w : Watcher) (path : PPath) (mask : Nat)
    (rc : Option Bool) : Option String × Watcher :=
  (watcherAddFull env w path mask rc).1

/-- `PathWatcher.update`. -/
def watcherUpdate (env : Env) (w : Watcher) (key : PPath) (newmask : Nat)
    (rc : Option Bool) : Watcher :=
  pwUpdate env w key newmask rc

/-- `PathWatcher.remove`. -/
def watcherRemove (w : Watcher) (key : PPath) : Watcher :=
  match alGet w.paths key with
  | none => w
  | some _ =>
    let w2 := poplinksFrom w key 0
    { w2 with paths := alRemove w2.paths key }

/-- `PathWatcher.getmask`. -/
def watcherGetmask (w : Watcher) (key : PPath) : Option Nat :=
  (alGet w.paths key).map (fun pw => pw.mask)

/-- `_PathWatch._queue_overflow`. -/
def pwQueueOverflow (w : Watcher) (key : PPath) : Watcher :=
  registerReconnectW (poplinksFrom w key 1) key

/-- Handling of a kernel `Q_OVERFLOW` event
(`PathWatcher._handle_descriptorless_event`): every PathWatch collapses
to its first link and is enqueued for reconnection. -/
def watcherQueueOverflow (w : Watcher) : Watcher :=
  (w.paths.map Prod.fst).foldl pwQueueOverflow w

/-! ## Event dispatch -/

/-- A raw kernel event `{wd, mask, cookie, name}`. -/
structure RawEvent where
  wd : Nat
  mask : Nat
  cookie : Nat
  name : Option String
deriving DecidableEq, Repr

/-- The observable fields of a public `Event`. -/
structure EventOut where
  path : String
  mask : Nat
  cookie : Nat
  name : Option String
  wd : Nat
deriving DecidableEq, Repr

/-- `_PathWatch._eventmap` in its (insertion-ordered) iteration order. -/
def eventmapList : List (Nat × Nat) :=
  [(IN_MOVED_FROM ||| IN_MOVE_SELF, IN_PATH_MOVED_FROM),
   (IN_MOVED_TO, IN_PATH_MOVED_TO),
   (IN_DELETE ||| IN_DELETE_SELF ||| IN_IGNORED, IN_PATH_DELETE),
   (IN_CREATE, IN_PATH_CREATE),
   (IN_UNMOUNT, IN_PATH_UNMOUNT)]

/-- The `for m, t in _eventmap.items(): if event.mask & m: evttype = t`
loop: the last matching entry wins (0 models the unbound variable when
nothing matches, which in the source would be a NameError). -/
def evttypeOf (mask : Nat) : Nat :=
  eventmapList.foldl (fun acc mt => if mask &&& mt.1 ≠ 0 then mt.2 else acc) 0

def selfEventMask : Nat :=
  IN_MOVE_SELF ||| IN_DELETE_SELF ||| IN_IGNORED ||| IN_UNMOUNT

/-- The `name` of a synthetic event: the full path of the changed
component (`str(PosixPath(link.path)[link.name])` for a directory-entry
event, the link's own path for a self event). -/
def synthName (link : Link) (mask : Nat) : String :=
  if mask &&& selfEventMask = 0 then ppStr (link.path.child (link.name.getD ""))
  else ppStr link.path

/-- `_PathWatch.handle_event`: an event on the leaf of a fully watched
chain is forwarded (with teardown on `IN_IGNORED`); an event on an
intermediate link prunes the stale tail of the chain, requests
reconnection when a future state could heal the path, and emits a
synthetic `IN_PATH_*` event. -/
def pwHandleEvent (w : Watcher) (key : PPath) (link : Link) (ev : RawEvent) :
    Watcher × List EventOut :=
  match alGet w.paths key with
  | none => (w, [])
  | some pw =>
    if pw.watch_complete = 2 ∧ link.idx = pw.links.length - 1 then
      let w1 :=
        if ev.mask &&& IN_IGNORED ≠ 0 then
          let w2 := poplinksFrom w key link.idx
          if ev.mask &&& IN_UNMOUNT ≠ 0 then registerReconnectW w2 key else w2
        else w
      (w1,
       if ev.mask &&& pw.mask ≠ 0 then
         [⟨ppStr pw.path, ev.mask, ev.cookie, ev.name, ev.wd⟩]
       else [])
    else
      let i := link.idx +
        (if ev.mask &&& (IN_MOVE ||| IN_DELETE ||| IN_CREATE) ≠ 0 then 1 else 0)
      let w1 := poplinksFrom w key i
      let w2 :=
        if ev.mask &&& (IN_MOVED_TO ||| IN_CREATE ||| IN_UNMOUNT) ≠ 0 then
          registerReconnectW w1 key
        else w1
      (w2,
       [⟨ppStr pw.path, evttypeOf ev.mask ||| (ev.mask &&& IN_ISDIR), 0,
         some (synthName link ev.mask), ev.wd⟩])

/-- The snapshot taken by `_Descriptor.handle_event`: the links under
the event's name plus, for a named event, the links under the wildcard
key. -/
def snapshotCb (d : Descriptor) (name : Option String) : List CbEntry :=
  (alGet d.callbacks name).getD [] ++
  (if name ≠ none then (alGet d.callbacks none).getD [] else [])

/-- One iteration of the dispatch loop of `_Descriptor.handle_event`,
including the liveness re-check of `_Link.handle_event` (the link can
have been removed by an earlier handler of the same snapshot) and the
mask filter. -/
def dispatchOne (ev : RawEvent) (acc : Watcher × List EventOut) (e : CbEntry) :
    Watcher × List EventOut :=
  match alGet acc.1.paths e.watchKey with
  | none => acc
  | some pw =>
    match pw.links.find? (fun l => l.lid = e.lid) with
    | none => acc
    | some link =>
      if link.wd = none then acc
      else if ev.mask &&& (link.mask ||| IN_IGNORED) = 0 then acc
      else
        let r := pwHandleEvent acc.1 e.watchKey link ev
        (r.1, acc.2 ++ r.2)

/-- `_Descriptor.handle_event` as dispatched from `PathWatcher._read_events`:
flip `active` on `IN_IGNORED`, dispatch over a snapshot of the matching
callbacks, and on `IN_IGNORED` finally drop the descriptor and count the
acknowledged removal. -/
def descrHandleEvent (w : Watcher) (ev : RawEvent) : Watcher × List EventOut :=
  match alGet w.descrs ev.wd with
  | none => (w, [])
  | some d =>
    let d2 := if ev.mask &&& IN_IGNORED ≠ 0 then { d with active := false } else d
    let w2 := { w with descrs := alSet w.descrs ev.wd d2 }
    let r := (snapshotCb d2 ev.name).foldl (dispatchOne ev) (w2, [])
    if ev.mask &&& IN_IGNORED ≠ 0 then
      ({ r.1 with descrs := alRemove r.1.descrs ev.wd, pending := r.1.pending - 1 }, r.2)
    else r

/-! ## Observable state

Python object identity is modelled by the `lid` fields; the observable
projection erases them (and the allocation counter), so that two states
that differ only in the identity of value-equal `_Link` objects are
observably equal. -/

structure LinkObs where
  idx : Nat
  mask : Nat
  path : PPath
  name : Option String
  rest : List String
  linkcount : Option Nat
  wd : Option Nat
deriving DecidableEq, Repr

def linkObs (l : Link) : LinkObs :=
  ⟨l.idx, l.mask, l.path, l.name, l.rest, l.linkcount, l.wd⟩

structure PwObs where
  path : PPath
  mask : Nat
  links : List LinkObs
  watch_complete : Nat
  cwd : Option (List String)
deriving DecidableEq, Repr

def pwObs (pw : PathWatch) : PwObs :=
  ⟨pw.path, pw.mask, pw.links.map linkObs, pw.watch_complete, pw.cwd⟩

structure DescrObs where
  wd : Nat
  mask : Nat
  active : Bool
  callbacks : List (Option String × List (PPath × Nat))
deriving DecidableEq, Repr

def descrObs (d : Descriptor) : DescrObs :=
  ⟨d.wd, d.mask, d.active,
   d.callbacks.map (fun ne => (ne.1, ne.2.map (fun e => (e.watchKey, e.mask))))⟩

structure WatcherObs where
  paths : List (PPath × PwObs)
  descrs : List (Nat × DescrObs)
  pending : Int
  reconnect : List PPath
  kernel : Kernel
  removeLog : List Nat
deriving DecidableEq, Repr

def watcherObs (w : Watcher) : WatcherObs :=
  ⟨w.paths.map (fun kp => (kp.1, pwObs kp.2)),
   w.descrs.map (fun kd => (kd.1, descrObs kd.2)),
   w.pending, w.reconnect, w.kernel, w.removeLog⟩

/-! ## Concrete fixtures used by closed theorems -/

/-- A working directory `/home` containing a regular file `testfile`. -/
def envA : Env := ⟨[(["home"], .dir), (["home", "testfile"], .file)], ["home"], 40, 50⟩

def pTestfile : PPath := ⟨false, ["testfile"]⟩

def pMissing : PPath := ⟨false, ["missing"]⟩

/-- The masks contributed by the links currently registered on a
descriptor. -/
def cbMasks (d : Descriptor) : List Nat :=
  d.callbacks.flatMap (fun ne => ne.2.map (fun e => e.mask))

/-- The state after watching `testfile` in `/home`. -/
def wTestfile : Watcher := (watcherAdd envA emptyWatcher pTestfile IN_OPEN none).2

/-! ## C1 -/

/-- C1: the claim states that `update` with `IN_MASK_ADD` set leaves the
stored mask equal to the bitwise OR of the old and the new mask.  The
code applies `&=`, so updating an `IN_OPEN` watch with
`IN_CLOSE_NOWRITE | IN_MASK_ADD` leaves the stored mask `0` (the
intersection), not the merge — contradicting the method's own docstring
("add the new mask into the existing mask") and the documented meaning
of `IN_MASK_ADD`. -/
theorem c1_mask_add_intersects_instead_of_merging :
    watcherGetmask (watcherUpdate envA wTestfile pTestfile
        (IN_CLOSE_NOWRITE ||| IN_MASK_ADD) none) pTestfile =
      some (IN_OPEN &&& (IN_CLOSE_NOWRITE ||| IN_MASK_ADD)) ∧
    IN_OPEN &&& (IN_CLOSE_NOWRITE ||| IN_MASK_ADD) = 0 ∧
    watcherGetmask (watcherUpdate envA wTestfile pTestfile
        (IN_CLOSE_NOWRITE ||| IN_MASK_ADD) none) pTestfile ≠
      some (IN_OPEN ||| IN_CLOSE_NOWRITE ||| IN_MASK_ADD) := by
  decide

/-! ## C6 -/

/-- The state after watching `testfile` and then removing the watch:
the two descriptors stay in the table (awaiting their `IN_IGNORED`
acknowledgements) with empty link sets. -/
def wRemoved : Watcher := watcherRemove wTestfile pTestfile

/-- C6 counterexample: after the public operations `add` followed by
`remove`, descriptor 1 is still present in the table with an empty set
of registered links, refuting the claimed invariant (its union-mask also
still carries the removed links' bits, while the OR over the registered
links is 0). -/
theorem c6_counterexample :
    ¬ (∀ wd d, alGet wRemoved.descrs wd = some d →
         d.callbacks ≠ [] ∧ d.mask = (cbMasks d).foldl (fun a b => a ||| b) 0) := by
  intro h
  exact absurd (h 1 ⟨1, intermediateMask "testfile", true, []⟩ (by decide)).1 (by decide)

/-! ## C7 -/

/-- C7: adding the same path with the same mask twice leaves the
observable watcher state unchanged, but the second call returns `None`
(the early `return` on the already-watched branch), not the normalized
path string promised by the claim and by the method's docstring. -/
theorem c7_second_add_returns_none_state_unchanged :
    (watcherAdd envA emptyWatcher pTestfile IN_OPEN none).1 = some "testfile" ∧
    (watcherAdd envA wTestfile pTestfile IN_OPEN none).1 = none ∧
    watcherObs (watcherAdd envA wTestfile pTestfile IN_OPEN none).2 = watcherObs wTestfile := by
  decide

/-! ## Association-list and path lemmas -/

theorem alGet_alSet_self {α β : Type} [DecidableEq α] (l : List (α × β)) (k : α) (v : β) :
    alGet (alSet l k v) k = some v := by
  induction l with
  | nil => simp [alGet, alSet]
  | cons a t ih =>
    by_cases h : a.1 = k <;> simp [alGet, alSet, h, ih]

theorem alGet_alSet_ne {α β : Type} [DecidableEq α] (l : List (α × β)) (k k' : α) (v : β)
    (h : k ≠ k') : alGet (alSet l k v) k' = alGet l k' := by
  induction l with
  | nil => simp [alGet, alSet, h]
  | cons a t ih =>
    by_cases h2 : a.1 = k
    · have h3 : a.1 ≠ k' := by rw [h2]; exact h
      simp [alGet, alSet, h2, h, h3]
    · have h4 : ¬ k' = k := fun hh => h hh.symm
      by_cases h3 : a.1 = k' <;> simp [alGet, alSet, h2, h3, h4, ih]

theorem mem_alSet {α β : Type} [DecidableEq α] {l : List (α × β)} {k : α} {v : β}
    {e : α × β} (h : e ∈ alSet l k v) : e = (k, v) ∨ e ∈ l := by
  induction l with
  | nil =>
    simp [alSet] at h
    exact .inl h
  | cons a t ih =>
    by_cases h2 : a.1 = k
    · rw [show alSet (a :: t) k v = (k, v) :: t from by simp [alSet, h2]] at h
      rcases List.mem_cons.mp h with h3 | h3
      · exact .inl h3
      · exact .inr (List.mem_cons_of_mem _ h3)
    · rw [show alSet (a :: t) k v = a :: alSet t k v from by simp [alSet, h2]] at h
      rcases List.mem_cons.mp h with h3 | h3
      · exact .inr (h3 ▸ List.mem_cons_self a t)
      · rcases ih h3 with h4 | h4
        · exact .inl h4
        · exact .inr (List.mem_cons_of_mem _ h4)

theorem mem_alRemove {α β : Type} [DecidableEq α] {l : List (α × β)} {k : α}
    {e : α × β} (h : e ∈ alRemove l k) : e ∈ l := by
  induction l with
  | nil => simpa [alRemove] using h
  | cons a t ih =>
    by_cases h2 : a.1 = k
    · rw [show alRemove (a :: t) k = t from by simp [alRemove, h2]] at h
      exact List.mem_cons_of_mem _ h
    · rw [show alRemove (a :: t) k = a :: alRemove t k from by simp [alRemove, h2]] at h
      rcases List.mem_cons.mp h with h3 | h3
      · exact h3 ▸ List.mem_cons_self a t
      · exact List.mem_cons_of_mem _ (ih h3)

theorem alGet_mem {α β : Type} [DecidableEq α] {l : List (α × β)} {k : α} {v : β}
    (h : alGet l k = some v) : (k, v) ∈ l := by
  induction l with
  | nil => simp [alGet] at h
  | cons a t ih =>
    by_cases h2 : a.1 = k
    · rw [show alGet (a :: t) k = some a.2 from by simp [alGet, h2]] at h
      have h4 : (k, v) = a := by
        cases a
        simp_all
      exact h4 ▸ List.mem_cons_self a t
    · rw [show alGet (a :: t) k = alGet t k from by simp [alGet, h2]] at h
      exact List.mem_cons_of_mem _ (ih h)

/-! ## Normalization lemmas for the parent-directory step -/

theorem osNorm_append (xs ys : List String) :
    osNorm (xs ++ ys) =
      ys.foldl
        (fun acc s => if s = "." then acc else if s = ".." then acc.dropLast else acc ++ [s])
        (osNorm xs) := by
  simp [osNorm, List.foldl_append]

theorem osNorm_append_parentdir (xs : List String) :
    osNorm (xs ++ [".."]) = (osNorm xs).dropLast := by
  simp [osNorm_append]

theorem osNorm_append_normal (xs : List String) (s : String) (h1 : ¬ s = ".")
    (h2 : ¬ s = "..") : osNorm (xs ++ [s]) = osNorm xs ++ [s] := by
  simp [osNorm_append, h1, h2]

theorem ppDen_child (cwdN : List String) (p : PPath) (s : String) :
    ppDen cwdN (p.child s) = ppDen cwdN p ++ [s] := by
  by_cases h : p.isAbs <;> simp [ppDen, PPath.child, h]

/-! ## C8 -/

/-- The location the resolver moves to when the first remaining
component is `..` (the body of that branch of `resolve_symlink`). -/
def dotdotNext (L : PPath) : PPath :=
  if L.segs.all (fun s => s = "..") then L.child ".." else L.parentP

/-- C8: when the first remaining component is `..`, the resolver
consumes it and pops one segment of the current directory: the
continuation runs on the tail of the suffix from `dotdotNext L`, whose
OS denotation is the parent of the old location, with `/..` staying at
`/` (`dropLast` of the normalized root is the root again).  The
hypothesis pins the location to the shapes the resolver produces: either
a root-like chain of `..` parts or a path ending in a real name. -/
theorem c8_parentdir_pops_segment (fs : Fs) (cwdN : List String) (fuel : Nat)
    (loc0 : PPath) (ab : Bool) (rest : List String) (active : List PPath)
    (known : List (PPath × PPath)) (cnt : Nat) (L : PPath)
    (hL : (if ab then rootPP else loc0) = L)
    (hlast : L.segs.all (fun s => s = "..") = true ∨
      (∃ s, L.segs.getLast? = some s ∧ ¬ s = "." ∧ ¬ s = "..")) :
    (resolveSymlink fs cwdN (fuel + 1) loc0 ⟨ab, ".." :: rest⟩ active known cnt =
      ⟨⟨L, ".." :: rest, cnt⟩ ::
         (resolveSymlink fs cwdN fuel (dotdotNext L) ⟨false, rest⟩ active known cnt).yields,
       (resolveSymlink fs cwdN fuel (dotdotNext L) ⟨false, rest⟩ active known cnt).err,
       (resolveSymlink fs cwdN fuel (dotdotNext L) ⟨false, rest⟩ active known cnt).known,
       (resolveSymlink fs cwdN fuel (dotdotNext L) ⟨false, rest⟩ active known cnt).cnt⟩) ∧
    osNorm (ppDen cwdN (dotdotNext L)) = (osNorm (ppDen cwdN L)).dropLast := by
  subst hL
  constructor
  · rfl
  · by_cases hall : (if ab then rootPP else loc0).segs.all (fun s => s = "..") = true
    · simp only [dotdotNext, hall, if_true]
      rw [ppDen_child, osNorm_append_parentdir]
    · rcases hlast with hl | ⟨s, hs, h1, h2⟩
      · exact absurd hl hall
      · obtain ⟨init, hinit⟩ := List.getLast?_eq_some_iff.mp hs
        have hden : ppDen cwdN (if ab then rootPP else loc0) =
            ppDen cwdN (⟨(if ab then rootPP else loc0).isAbs, init⟩ : PPath) ++ [s] := by
          by_cases hab : ((if ab then rootPP else loc0) : PPath).isAbs <;>
            simp [ppDen, hinit, hab]
        have hdenp : ppDen cwdN ((if ab then rootPP else loc0) : PPath).parentP =
            ppDen cwdN (⟨(if ab then rootPP else loc0).isAbs, init⟩ : PPath) := by
          by_cases hab : ((if ab then rootPP else loc0) : PPath).isAbs <;>
            simp [ppDen, PPath.parentP, hinit, hab, List.dropLast_concat]
        simp [dotdotNext, hall, hdenp, hden, osNorm_append_normal _ s h1 h2]

/-! ## Preservation lemmas for the watcher operations -/

theorem modPW_get_self (w : Watcher) (key : PPath) (f : PathWatch → PathWatch) :
    alGet (modPW w key f).paths key = (alGet w.paths key).map f := by
  cases h : alGet w.paths key <;> simp [modPW, h, setPW, alGet_alSet_self]

theorem modPW_get_ne (w : Watcher) (key k2 : PPath) (f : PathWatch → PathWatch)
    (h : key ≠ k2) : alGet (modPW w key f).paths k2 = alGet w.paths k2 := by
  cases h2 : alGet w.paths key <;> simp [modPW, h2, setPW, alGet_alSet_ne _ _ _ _ h]

theorem modPW_reconnect (w : Watcher) (key : PPath) (f : PathWatch → PathWatch) :
    (modPW w key f).reconnect = w.reconnect := by
  cases h : alGet w.paths key <;> simp [modPW, h, setPW]

theorem modPW_descrs (w : Watcher) (key : PPath) (f : PathWatch → PathWatch) :
    (modPW w key f).descrs = w.descrs := by
  cases h : alGet w.paths key <;> simp [modPW, h, setPW]

theorem modPW_pending (w : Watcher) (key : PPath) (f : PathWatch → PathWatch) :
    (modPW w key f).pending = w.pending := by
  cases h : alGet w.paths key <;> simp [modPW, h, setPW]

theorem modPW_kernel (w : Watcher) (key : PPath) (f : PathWatch → PathWatch) :
    (modPW w key f).kernel = w.kernel := by
  cases h : alGet w.paths key <;> simp [modPW, h, setPW]

theorem modPW_removeLog (w : Watcher) (key : PPath) (f : PathWatch → PathWatch) :
    (modPW w key f).removeLog = w.removeLog := by
  cases h : alGet w.paths key <;> simp [modPW, h, setPW]

theorem createwatch_paths (env : Env) (w : Watcher) (loc : PPath) (name : Option String)
    (e : CbEntry) : (createwatch env w loc name e).2.paths = w.paths := rfl

theorem createwatch_reconnect (env : Env) (w : Watcher) (loc : PPath) (name : Option String)
    (e : CbEntry) : (createwatch env w loc name e).2.reconnect = w.reconnect := rfl

theorem createwatch_pending (env : Env) (w : Watcher) (loc : PPath) (name : Option String)
    (e : CbEntry) : (createwatch env w loc name e).2.pending = w.pending := rfl

theorem createwatch_removeLog (env : Env) (w : Watcher) (loc : PPath) (name : Option String)
    (e : CbEntry) : (createwatch env w loc name e).2.removeLog = w.removeLog := rfl

theorem addLinkW_get_self (env : Env) (w : Watcher) (key : PPath) (m : Nat) (loc : PPath)
    (nm : Option String) (rest : List String) (lc : Option Nat) (pw : PathWatch)
    (h : alGet w.paths key = some pw) :
    alGet (addLinkW env w key m loc nm rest lc).paths key =
      some { pw with links := pw.links ++
        [⟨w.nextLid, pw.links.length, m, loc, nm, rest, lc,
          some (kernelAddWatch env w.kernel loc).1⟩] } := by
  simp [addLinkW, h, setPW, alGet_alSet_self, createwatch]

theorem addLinkW_get_ne (env : Env) (w : Watcher) (key k2 : PPath) (m : Nat) (loc : PPath)
    (nm : Option String) (rest : List String) (lc : Option Nat) (h : key ≠ k2) :
    alGet (addLinkW env w key m loc nm rest lc).paths k2 = alGet w.paths k2 := by
  cases h2 : alGet w.paths key <;>
    simp [addLinkW, h2, setPW, alGet_alSet_ne _ _ _ _ h, createwatch_paths]

theorem addLinkW_reconnect (env : Env) (w : Watcher) (key : PPath) (m : Nat) (loc : PPath)
    (nm : Option String) (rest : List String) (lc : Option Nat) :
    (addLinkW env w key m loc nm rest lc).reconnect = w.reconnect := by
  cases h : alGet w.paths key <;> simp [addLinkW, h, setPW, createwatch]

theorem addLinkW_pending (env : Env) (w : Watcher) (key : PPath) (m : Nat) (loc : PPath)
    (nm : Option String) (rest : List String) (lc : Option Nat) :
    (addLinkW env w key m loc nm rest lc).pending = w.pending := by
  cases h : alGet w.paths key <;> simp [addLinkW, h, setPW, createwatch]

theorem addLinkW_removeLog (env : Env) (w : Watcher) (key : PPath) (m : Nat) (loc : PPath)
    (nm : Option String) (rest : List String) (lc : Option Nat) :
    (addLinkW env w key m loc nm rest lc).removeLog = w.removeLog := by
  cases h : alGet w.paths key <;> simp [addLinkW, h, setPW, createwatch]

theorem addLeafW_get_ne (env : Env) (w : Watcher) (key k2 : PPath) (loc : PPath)
    (h : key ≠ k2) : alGet (addLeafW env w key loc).paths k2 = alGet w.paths k2 := by
  cases h2 : alGet w.paths key <;> simp [addLeafW, h2, addLinkW_get_ne _ _ _ _ _ _ _ _ _ h]

theorem addLeafW_reconnect (env : Env) (w : Watcher) (key : PPath) (loc : PPath) :
    (addLeafW env w key loc).reconnect = w.reconnect := by
  cases h : alGet w.paths key <;> simp [addLeafW, h, addLinkW_reconnect]

theorem addLeafW_pending (env : Env) (w : Watcher) (key : PPath) (loc : PPath) :
    (addLeafW env w key loc).pending = w.pending := by
  cases h : alGet w.paths key <;> simp [addLeafW, h, addLinkW_pending]

theorem addLeafW_removeLog (env : Env) (w : Watcher) (key : PPath) (loc : PPath) :
    (addLeafW env w key loc).removeLog = w.removeLog := by
  cases h : alGet w.paths key <;> simp [addLeafW, h, addLinkW_removeLog]

theorem addPathElementW_get_ne (env : Env) (w : Watcher) (key k2 : PPath) (loc : PPath)
    (rest : List String) (lc : Nat) (h : key ≠ k2) :
    alGet (addPathElementW env w key loc rest lc).paths k2 = alGet w.paths k2 := by
  cases rest <;> simp [addPathElementW, addLinkW_get_ne _ _ _ _ _ _ _ _ _ h]

theorem addPathElementW_reconnect (env : Env) (w : Watcher) (key : PPath) (loc : PPath)
    (rest : List String) (lc : Nat) :
    (addPathElementW env w key loc rest lc).reconnect = w.reconnect := by
  cases rest <;> simp [addPathElementW, addLinkW_reconnect]

theorem addPathElementW_pending (env : Env) (w : Watcher) (key : PPath) (loc : PPath)
    (rest : List String) (lc : Nat) :
    (addPathElementW env w key loc rest lc).pending = w.pending := by
  cases rest <;> simp [addPathElementW, addLinkW_pending]

theorem addPathElementW_removeLog (env : Env) (w : Watcher) (key : PPath) (loc : PPath)
    (rest : List String) (lc : Nat) :
    (addPathElementW env w key loc rest lc).removeLog = w.removeLog := by
  cases rest <;> simp [addPathElementW, addLinkW_removeLog]

/-- The projections of the PathWatch at `key` that `addLinkW` leaves
untouched (everything but the link chain). -/
theorem addLinkW_get_self_parts (env : Env) (w : Watcher) (key : PPath) (m : Nat)
    (loc : PPath) (nm : Option String) (rest : List String) (lc : Option Nat) :
    (alGet (addLinkW env w key m loc nm rest lc).paths key).map
        (fun pw => (pw.path, pw.mask, pw.watch_complete, pw.cwd)) =
      (alGet w.paths key).map (fun pw => (pw.path, pw.mask, pw.watch_complete, pw.cwd)) := by
  cases h : alGet w.paths key with
  | none => simp [addLinkW, h]
  | some pw => simp [addLinkW_get_self env w key m loc nm rest lc pw h, h]

theorem addPathElementW_get_self_parts (env : Env) (w : Watcher) (key : PPath)
    (loc : PPath) (rest : List String) (lc : Nat) :
    (alGet (addPathElementW env w key loc rest lc).paths key).map
        (fun pw => (pw.path, pw.mask, pw.watch_complete, pw.cwd)) =
      (alGet w.paths key).map (fun pw => (pw.path, pw.mask, pw.watch_complete, pw.cwd)) := by
  cases rest <;> simp [addPathElementW, addLinkW_get_self_parts]

theorem addLeafW_get_self_parts (env : Env) (w : Watcher) (key : PPath) (loc : PPath) :
    (alGet (addLeafW env w key loc).paths key).map
        (fun pw => (pw.path, pw.mask, pw.watch_complete, pw.cwd)) =
      (alGet w.paths key).map (fun pw => (pw.path, pw.mask, pw.watch_complete, pw.cwd)) := by
  cases h : alGet w.paths key <;> simp [addLeafW, h, addLinkW_get_self_parts]

/-- A consumption run that stops silently with `watch_complete` still 0:
no yield completes resolution or trips the symlink budget first, and the
generator ends in a concurrent-modification fault — caught by exception
type and silenced — or in the embedding's exhausted recursion budget
(or, vacuously for this resolver, with no final `'.'` yield at all). -/
def silentStopB (env : Env) : List RYield → Option RErr → Bool
  | [], err =>
    match err with
    | some (.concurrentMod _) => true
    | some .fuelOut => true
    | some _ => false
    | none => true
  | y :: ys, err =>
    if y.cnt > env.symlinkmax then false
    else if y.rest = [] then false
    else silentStopB env ys err

/-- A consumption run that reaches the resolver's final `'.'` yield
without tripping the symlink budget: the reconnect then completes with
`watch_complete = 2` and no escaping exception. -/
def reachesLeafB (env : Env) : List RYield → Bool
  | [] => false
  | y :: ys =>
    if y.cnt > env.symlinkmax then false
    else if y.rest = [] then true
    else reachesLeafB env ys

theorem consume_reconnect (env : Env) (w : Watcher) (key : PPath) (ys : List RYield)
    (err : Option RErr) : (consumeYields env w key ys err).1.reconnect = w.reconnect := by
  induction ys generalizing w with
  | nil =>
    cases err with
    | none => simp [consumeYields]
    | some e => cases e <;> simp [consumeYields]
  | cons y ys ih =>
    by_cases h1 : y.cnt > env.symlinkmax
    · simp [consumeYields, h1]
    · by_cases h2 : y.rest = []
      · simp [consumeYields, h1, h2, setWC, modPW_reconnect, addLeafW_reconnect]
      · simp [consumeYields, h1, h2, ih, addPathElementW_reconnect]

theorem consume_pending (env : Env) (w : Watcher) (key : PPath) (ys : List RYield)
    (err : Option RErr) : (consumeYields env w key ys err).1.pending = w.pending := by
  induction ys generalizing w with
  | nil =>
    cases err with
    | none => simp [consumeYields]
    | some e => cases e <;> simp [consumeYields]
  | cons y ys ih =>
    by_cases h1 : y.cnt > env.symlinkmax
    · simp [consumeYields, h1]
    · by_cases h2 : y.rest = []
      · simp [consumeYields, h1, h2, setWC, modPW_pending, addLeafW_pending]
      · simp [consumeYields, h1, h2, ih, addPathElementW_pending]

theorem consume_removeLog (env : Env) (w : Watcher) (key : PPath) (ys : List RYield)
    (err : Option RErr) : (consumeYields env w key ys err).1.removeLog = w.removeLog := by
  induction ys generalizing w with
  | nil =>
    cases err with
    | none => simp [consumeYields]
    | some e => cases e <;> simp [consumeYields]
  | cons y ys ih =>
    by_cases h1 : y.cnt > env.symlinkmax
    · simp [consumeYields, h1]
    · by_cases h2 : y.rest = []
      · simp [consumeYields, h1, h2, setWC, modPW_removeLog, addLeafW_removeLog]
      · simp [consumeYields, h1, h2, ih, addPathElementW_removeLog]

theorem consume_get_ne (env : Env) (w : Watcher) (key k2 : PPath) (ys : List RYield)
    (err : Option RErr) (hne : key ≠ k2) :
    alGet (consumeYields env w key ys err).1.paths k2 = alGet w.paths k2 := by
  induction ys generalizing w with
  | nil =>
    cases err with
    | none => simp [consumeYields]
    | some e => cases e <;> simp [consumeYields]
  | cons y ys ih =>
    by_cases h1 : y.cnt > env.symlinkmax
    · simp [consumeYields, h1]
    · by_cases h2 : y.rest = []
      · simp [consumeYields, h1, h2, setWC, modPW_get_ne _ _ _ _ hne,
          addLeafW_get_ne _ _ _ _ _ hne]
      · simp [consumeYields, h1, h2, ih, addPathElementW_get_ne _ _ _ _ _ _ _ hne]

/-- Consumption only touches the link chain and the completion state of
the PathWatch at `key`: its path, mask and recorded working directory
are preserved. -/
theorem consume_get_pmc (env : Env) (w : Watcher) (key : PPath) (ys : List RYield)
    (err : Option RErr) :
    (alGet (consumeYields env w key ys err).1.paths key).map
        (fun pw => (pw.path, pw.mask, pw.cwd)) =
      (alGet w.paths key).map (fun pw => (pw.path, pw.mask, pw.cwd)) := by
  have hsetwc : ∀ (w2 : Watcher) (v : Nat),
      (alGet (setWC w2 key v).paths key).map (fun pw => (pw.path, pw.mask, pw.cwd)) =
      (alGet w2.paths key).map (fun pw => (pw.path, pw.mask, pw.cwd)) := by
    intro w2 v
    rw [setWC, modPW_get_self]
    cases alGet w2.paths key <;> simp
  induction ys generalizing w with
  | nil =>
    cases err with
    | none => simp [consumeYields]
    | some e => cases e <;> simp [consumeYields]
  | cons y ys ih =>
    by_cases h1 : y.cnt > env.symlinkmax
    · simp [consumeYields, h1]
    · by_cases h2 : y.rest = []
      · rw [show (consumeYields env w key (y :: ys) err).1 =
            setWC (addLeafW env w key y.loc) key 2 from by simp [consumeYields, h1, h2]]
        rw [hsetwc]
        have h3 := addLeafW_get_self_parts env w key y.loc
        cases hget : alGet (addLeafW env w key y.loc).paths key <;>
          cases hget2 : alGet w.paths key <;> rw [hget, hget2] at h3 <;> simp_all
      · rw [show consumeYields env w key (y :: ys) err =
            consumeYields env (addPathElementW env w key y.loc y.rest y.cnt) key ys err
          from by simp [consumeYields, h1, h2]]
        rw [ih]
        have h3 := addPathElementW_get_self_parts env w key y.loc y.rest y.cnt
        cases hget : alGet (addPathElementW env w key y.loc y.rest y.cnt).paths key <;>
          cases hget2 : alGet w.paths key <;> rw [hget, hget2] at h3 <;> simp_all

theorem consume_get_isSome (env : Env) (w : Watcher) (key : PPath) (ys : List RYield)
    (err : Option RErr) :
    (alGet (consumeYields env w key ys err).1.paths key).isSome =
      (alGet w.paths key).isSome := by
  have h := consume_get_pmc env w key ys err
  cases hget : alGet (consumeYields env w key ys err).1.paths key <;>
    cases hget2 : alGet w.paths key <;> rw [hget, hget2] at h <;> simp_all

theorem setWC_map_wc (w : Watcher) (key : PPath) (v : Nat)
    (h : (alGet w.paths key).isSome = true) :
    (alGet (setWC w key v).paths key).map (fun pw => pw.watch_complete) = some v := by
  rw [setWC, modPW_get_self]
  cases h2 : alGet w.paths key <;> simp_all

theorem addLeafW_isSome (env : Env) (w : Watcher) (key : PPath) (loc : PPath)
    (h : (alGet w.paths key).isSome = true) :
    (alGet (addLeafW env w key loc).paths key).isSome = true := by
  have h4 := addLeafW_get_self_parts env w key loc
  cases h5 : alGet (addLeafW env w key loc).paths key <;>
    cases h3 : alGet w.paths key <;> rw [h5, h3] at h4 <;> simp_all

theorem addPathElementW_isSome (env : Env) (w : Watcher) (key : PPath) (loc : PPath)
    (rest : List String) (lc : Nat) (h : (alGet w.paths key).isSome = true) :
    (alGet (addPathElementW env w key loc rest lc).paths key).isSome = true := by
  have h4 := addPathElementW_get_self_parts env w key loc rest lc
  cases h5 : alGet (addPathElementW env w key loc rest lc).paths key <;>
    cases h3 : alGet w.paths key <;> rw [h5, h3] at h4 <;> simp_all

/-- A consumption run that reaches the final `'.'` yield ends
FULLY_WATCHED with no escaping exception. -/
theorem consume_reaches (env : Env) (w : Watcher) (key : PPath) (ys : List RYield)
    (err : Option RErr) (hr : reachesLeafB env ys = true)
    (hpw : (alGet w.paths key).isSome = true) :
    (alGet (consumeYields env w key ys err).1.paths key).map
        (fun pw => pw.watch_complete) = some 2 ∧
    (consumeYields env w key ys err).2 = none := by
  induction ys generalizing w with
  | nil => simp [reachesLeafB] at hr
  | cons y ys ih =>
    by_cases h1 : y.cnt > env.symlinkmax
    · simp [reachesLeafB, h1] at hr
    · by_cases h2 : y.rest = []
      · constructor
        · rw [show (consumeYields env w key (y :: ys) err).1 =
              setWC (addLeafW env w key y.loc) key 2 from by simp [consumeYields, h1, h2]]
          exact setWC_map_wc _ key 2 (addLeafW_isSome env w key y.loc hpw)
        · simp [consumeYields, h1, h2]
      · rw [show consumeYields env w key (y :: ys) err =
            consumeYields env (addPathElementW env w key y.loc y.rest y.cnt) key ys err
          from by simp [consumeYields, h1, h2]]
        exact ih _ (by simpa [reachesLeafB, h1, h2] using hr)
          (addPathElementW_isSome env w key y.loc y.rest y.cnt hpw)

/-- A consumption run that neither stops silently nor raises has reached
the final `'.'` yield. -/
theorem reaches_of_not_silent (env : Env) (w : Watcher) (key : PPath) (ys : List RYield)
    (err : Option RErr) (hns : silentStopB env ys err = false)
    (hnr : (consumeYields env w key ys err).2 = none) :
    reachesLeafB env ys = true := by
  induction ys generalizing w with
  | nil =>
    cases err with
    | none => simp [silentStopB] at hns
    | some e => cases e <;> simp_all [silentStopB, consumeYields]
  | cons y ys ih =>
    by_cases h1 : y.cnt > env.symlinkmax
    · rw [show (consumeYields env w key (y :: ys) err).2 = some (.symlinkLoop key) from by
        simp [consumeYields, h1]] at hnr
      cases hnr
    · by_cases h2 : y.rest = []
      · simp [reachesLeafB, h1, h2]
      · rw [show consumeYields env w key (y :: ys) err =
            consumeYields env (addPathElementW env w key y.loc y.rest y.cnt) key ys err
          from by simp [consumeYields, h1, h2]] at hnr
        simp only [silentStopB, if_neg h1, if_neg h2] at hns
        simp only [reachesLeafB, if_neg h1, if_neg h2]
        exact ih _ hns hnr

theorem alRemove_alSet_absent {α β : Type} [DecidableEq α] (l : List (α × β)) (k : α)
    (v : β) (h : alGet l k = none) : alRemove (alSet l k v) k = l := by
  induction l with
  | nil => simp [alSet, alRemove]
  | cons a t ih =>
    by_cases h2 : a.1 = k
    · rw [show alGet (a :: t) k = some a.2 from by simp [alGet, h2]] at h
      cases h
    · rw [show alGet (a :: t) k = alGet t k from by simp [alGet, h2]] at h
      rw [show alSet (a :: t) k v = a :: alSet t k v from by simp [alSet, h2]]
      rw [show alRemove (a :: alSet t k v) k = a :: alRemove (alSet t k v) k from by
        simp [alRemove, h2]]
      rw [ih h]

theorem alRemove_alSet_present {α β : Type} [DecidableEq α] (l : List (α × β)) (k : α)
    (v u : β) (h : alGet l k = some u) : alRemove (alSet l k v) k = alRemove l k := by
  induction l with
  | nil => cases h
  | cons a t ih =>
    by_cases h2 : a.1 = k
    · rw [show alSet (a :: t) k v = (k, v) :: t from by simp [alSet, h2]]
      rw [show alRemove ((k, v) :: t) k = t from by simp [alRemove]]
      rw [show alRemove (a :: t) k = t from by simp [alRemove, h2]]
    · rw [show alGet (a :: t) k = alGet t k from by simp [alGet, h2]] at h
      rw [show alSet (a :: t) k v = a :: alSet t k v from by simp [alSet, h2]]
      rw [show alRemove (a :: alSet t k v) k = a :: alRemove (alSet t k v) k from by
        simp [alRemove, h2]]
      rw [show alRemove (a :: t) k = a :: alRemove t k from by simp [alRemove, h2]]
      rw [ih h]

theorem setWC_paths_rm (w : Watcher) (key : PPath) (v : Nat) :
    alRemove (setWC w key v).paths key = alRemove w.paths key := by
  unfold setWC modPW
  split
  · rfl
  next pw h => exact alRemove_alSet_present w.paths key _ pw h

theorem addLinkW_paths_rm (env : Env) (w : Watcher) (key : PPath) (m : Nat) (loc : PPath)
    (name : Option String) (rest : List String) (lc : Option Nat) :
    alRemove (addLinkW env w key m loc name rest lc).paths key = alRemove w.paths key := by
  unfold addLinkW
  split
  · rfl
  next pw h =>
    dsimp only
    simp only [setPW]
    rw [createwatch_paths]
    exact alRemove_alSet_present w.paths key _ pw h

theorem addLeafW_paths_rm (env : Env) (w : Watcher) (key : PPath) (loc : PPath) :
    alRemove (addLeafW env w key loc).paths key = alRemove w.paths key := by
  unfold addLeafW
  split
  · rfl
  · exact addLinkW_paths_rm env w key _ loc none [] none

theorem addPathElementW_paths_rm (env : Env) (w : Watcher) (key : PPath) (loc : PPath)
    (rest : List String) (lc : Nat) :
    alRemove (addPathElementW env w key loc rest lc).paths key = alRemove w.paths key := by
  unfold addPathElementW
  split
  · rfl
  · exact addLinkW_paths_rm env w key _ loc _ _ (some lc)

/-- Consumption changes the `paths` map only at `key`. -/
theorem consume_paths_rm (env : Env) (w : Watcher) (key : PPath) (ys : List RYield)
    (err : Option RErr) :
    alRemove (consumeYields env w key ys err).1.paths key = alRemove w.paths key := by
  induction ys generalizing w with
  | nil =>
    cases err with
    | none => simp [consumeYields]
    | some e => cases e <;> simp [consumeYields]
  | cons y ys ih =>
    by_cases h1 : y.cnt > env.symlinkmax
    · simp [consumeYields, h1]
    · by_cases h2 : y.rest = []
      · rw [show (consumeYields env w key (y :: ys) err).1 =
            setWC (addLeafW env w key y.loc) key 2 from by simp [consumeYields, h1, h2]]
        rw [setWC_paths_rm, addLeafW_paths_rm]
      · rw [show consumeYields env w key (y :: ys) err =
            consumeYields env (addPathElementW env w key y.loc y.rest y.cnt) key ys err
          from by simp [consumeYields, h1, h2]]
        rw [ih, addPathElementW_paths_rm]

theorem pwReconnect_reconnect (env : Env) (w : Watcher) (key : PPath) :
    (pwReconnect env w key).1.reconnect = w.reconnect := by
  cases h : alGet w.paths key with
  | none => simp [pwReconnect, h]
  | some pw =>
    by_cases h2 : pw.watch_complete ≠ 0 <;> simp [pwReconnect, h, h2, consume_reconnect]

theorem pwReconnect_pending (env : Env) (w : Watcher) (key : PPath) :
    (pwReconnect env w key).1.pending = w.pending := by
  cases h : alGet w.paths key with
  | none => simp [pwReconnect, h]
  | some pw =>
    by_cases h2 : pw.watch_complete ≠ 0 <;> simp [pwReconnect, h, h2, consume_pending]

theorem pwReconnect_removeLog (env : Env) (w : Watcher) (key : PPath) :
    (pwReconnect env w key).1.removeLog = w.removeLog := by
  cases h : alGet w.paths key with
  | none => simp [pwReconnect, h]
  | some pw =>
    by_cases h2 : pw.watch_complete ≠ 0 <;> simp [pwReconnect, h, h2, consume_removeLog]

theorem pwReconnect_get_ne (env : Env) (w : Watcher) (key k2 : PPath) (hne : key ≠ k2) :
    alGet (pwReconnect env w key).1.paths k2 = alGet w.paths k2 := by
  cases h : alGet w.paths key with
  | none => simp [pwReconnect, h]
  | some pw =>
    by_cases h2 : pw.watch_complete ≠ 0 <;>
      simp [pwReconnect, h, h2, consume_get_ne _ _ _ _ _ _ hne]

theorem pwReconnect_get_pmc (env : Env) (w : Watcher) (key : PPath) :
    (alGet (pwReconnect env w key).1.paths key).map
        (fun pw => (pw.path, pw.mask, pw.cwd)) =
      (alGet w.paths key).map (fun pw => (pw.path, pw.mask, pw.cwd)) := by
  cases h : alGet w.paths key with
  | none => simp [pwReconnect, h]
  | some pw =>
    by_cases h2 : pw.watch_complete ≠ 0 <;>
      simp [pwReconnect, h, h2, consume_get_pmc]

/-- A reconnect changes the `paths` map only at `key`. -/
theorem pwReconnect_paths_rm (env : Env) (w : Watcher) (key : PPath) :
    alRemove (pwReconnect env w key).1.paths key = alRemove w.paths key := by
  cases h : alGet w.paths key with
  | none => simp [pwReconnect, h]
  | some pw =>
    by_cases h2 : pw.watch_complete ≠ 0 <;> simp [pwReconnect, h, h2, consume_paths_rm]

/-! ## C2 -/

/-- **C2.** A first-time `add` of a path whose resolution faults
surfaces the resolver error to the caller instead of returning normally:
the custom `FileNotFoundError`/`NotADirectoryError`/`SymlinkLoopError`
constructors pass the message as the first `OSError` argument, so
`.errno` holds the message string, `reconnect`'s integer errno tuple
test misses, and the exception re-raises out of `add` — which therefore
returns no path string and stores no PathWatch under the path. -/
theorem c2_add_surfaces_path_missing (env : Env) (w : Watcher) (p : PPath) (m : Nat)
    (rc : Option Bool) (e : RErr) (hnew : alGet w.paths p = none)
    (herr : (pwReconnect env (setPW w p (mkPathWatch env p m rc)) p).2 = some e) :
    (watcherAddFull env w p m rc).2 = some e ∧
    (watcherAdd env w p m rc).1 = none ∧
    alGet (watcherAdd env w p m rc).2.paths p = none := by
  have h1 : watcherAddFull env w p m rc = ((none, { (pwReconnect env (setPW w p (mkPathWatch env p m rc)) p).1 with paths := alRemove (pwReconnect env (setPW w p (mkPathWatch env p m rc)) p).1.paths p }), some e) := by
    simp [watcherAddFull, hnew, herr]
  have h2 : alRemove (pwReconnect env (setPW w p (mkPathWatch env p m rc)) p).1.paths p
      = w.paths := by
    rw [pwReconnect_paths_rm]
    show alRemove (alSet w.paths p (mkPathWatch env p m rc)) p = w.paths
    exact alRemove_alSet_absent w.paths p _ hnew
  refine ⟨by rw [h1], by simp [watcherAdd, h1], ?_⟩
  simp only [watcherAdd, h1]
  show alGet (alRemove (pwReconnect env (setPW w p (mkPathWatch env p m rc)) p).1.paths p)
      p = none
  rw [h2]
  exact hnew

/-- Witness for C2 at the concrete missing path: `add('missing')` on the
`/home` fixture raises the resolver's file-not-found error for
`/home/missing` and stores nothing. -/
theorem c2_add_surfaces_path_missing_witness :
    (watcherAddFull envA emptyWatcher pMissing IN_OPEN none).2 =
      some (.fileNotFound ⟨true, ["home", "missing"]⟩) ∧
    (watcherAdd envA emptyWatcher pMissing IN_OPEN none).1 = none ∧
    alGet (watcherAdd envA emptyWatcher pMissing IN_OPEN none).2.paths pMissing = none :=
  c2_add_surfaces_path_missing envA emptyWatcher pMissing IN_OPEN none
    (.fileNotFound ⟨true, ["home", "missing"]⟩) (by decide) (by decide)

/-! ## C10 -/

/-- C10: `add` with `remember_curdir` omitted records the working
directory at add time exactly as `remember_curdir = True` does (the
recorded directory survives the initial reconnect), while
`remember_curdir = False` stores the `'.'` marker; a later resolution of
a chain-less PathWatch starts from the recording when there is one and
otherwise from the ambient working directory of that later operation. -/
theorem c10_remember_curdir_defaults_to_true (env : Env) (w : Watcher) (p : PPath)
    (m : Nat) (hnew : alGet w.paths p = none)
    (hok : ∀ rc : Option Bool,
      (pwReconnect env (setPW w p (mkPathWatch env p m rc)) p).2 = none) :
    ((alGet (watcherAdd env w p m none).2.paths p).map (fun pw => pw.cwd) =
        some (some env.cwdN) ∧
     (alGet (watcherAdd env w p m (some true)).2.paths p).map (fun pw => pw.cwd) =
        some (some env.cwdN) ∧
     (alGet (watcherAdd env w p m (some false)).2.paths p).map (fun pw => pw.cwd) =
        some none) ∧
    (∀ (env2 : Env) (pw : PathWatch), pw.links = [] →
      (∀ c, pw.cwd = some c → ppDen env2.cwdN (reconnectStart pw).1 = c) ∧
      (pw.cwd = none → ppDen env2.cwdN (reconnectStart pw).1 = env2.cwdN)) := by
  have hcwd : ∀ rc : Option Bool,
      (alGet (watcherAdd env w p m rc).2.paths p).map (fun pw => pw.cwd) =
        some (mkPathWatch env p m rc).cwd := by
    intro rc
    have hstep : (watcherAdd env w p m rc).2 =
        (pwReconnect env (setPW w p (mkPathWatch env p m rc)) p).1 := by
      simp [watcherAdd, watcherAddFull, hnew, hok rc]
    have h2 := pwReconnect_get_pmc env (setPW w p (mkPathWatch env p m rc)) p
    rw [show alGet (setPW w p (mkPathWatch env p m rc)).paths p =
        some (mkPathWatch env p m rc) from by simp [setPW, alGet_alSet_self]] at h2
    rw [hstep]
    cases h3 : alGet (pwReconnect env (setPW w p (mkPathWatch env p m rc)) p).1.paths p <;>
      rw [h3] at h2 <;> simp_all
  refine ⟨⟨hcwd none, hcwd (some true), hcwd (some false)⟩, ?_⟩
  intro env2 pw hempty
  constructor
  · intro c hc
    simp [reconnectStart, hempty, hc, ppDen]
  · intro hc
    simp [reconnectStart, hempty, hc, curdirPP, ppDen]

/-- Witness for C10 at the concrete environment. -/
theorem c10_remember_curdir_defaults_to_true_witness :
    (alGet (watcherAdd envA emptyWatcher pTestfile IN_OPEN none).2.paths pTestfile).map
        (fun pw => pw.cwd) = some (some envA.cwdN) :=
  (c10_remember_curdir_defaults_to_true envA emptyWatcher pTestfile IN_OPEN
    (by decide) (by decide)).1.1

/-- Witness for C8 at a concrete location `/a/b` with suffix `../x`. -/
theorem c8_parentdir_pops_segment_witness :
    osNorm (ppDen [] (dotdotNext ⟨true, ["a", "b"]⟩)) =
      (osNorm (ppDen [] (⟨true, ["a", "b"]⟩ : PPath))).dropLast :=
  (c8_parentdir_pops_segment [] [] 5 ⟨true, ["a", "b"]⟩ false ["x"] [] [] 0
    ⟨true, ["a", "b"]⟩ (by decide)
    (Or.inr ⟨"b", by decide, by decide, by decide⟩)).2

/-! ## Link-removal and pruning lemmas -/

theorem signalEmpty_paths (w : Watcher) (d : Descriptor) :
    (signalEmpty w d).paths = w.paths := by
  unfold signalEmpty
  by_cases h : d.active <;> simp [h]

theorem signalEmpty_reconnect (w : Watcher) (d : Descriptor) :
    (signalEmpty w d).reconnect = w.reconnect := by
  unfold signalEmpty
  by_cases h : d.active <;> simp [h]

theorem linkRemoveW_paths (w : Watcher) (link : Link) :
    (linkRemoveW w link).paths = w.paths := by
  cases hwd : link.wd with
  | none => simp [linkRemoveW, hwd]
  | some wd =>
    cases hd : alGet w.descrs wd with
    | none => simp [linkRemoveW, hwd, hd]
    | some d =>
      cases hcb : alGet d.callbacks link.name with
      | none => simp [linkRemoveW, hwd, hd, hcb]
      | some entries =>
        simp only [linkRemoveW, hwd, hd, hcb]
        split <;> split <;> simp [signalEmpty_paths]

theorem linkRemoveW_reconnect (w : Watcher) (link : Link) :
    (linkRemoveW w link).reconnect = w.reconnect := by
  cases hwd : link.wd with
  | none => simp [linkRemoveW, hwd]
  | some wd =>
    cases hd : alGet w.descrs wd with
    | none => simp [linkRemoveW, hwd, hd]
    | some d =>
      cases hcb : alGet d.callbacks link.name with
      | none => simp [linkRemoveW, hwd, hd, hcb]
      | some entries =>
        simp only [linkRemoveW, hwd, hd, hcb]
        split <;> split <;> simp [signalEmpty_reconnect]

theorem foldl_linkRemoveW_paths (l : List Link) (w : Watcher) :
    (l.foldl linkRemoveW w).paths = w.paths := by
  induction l generalizing w with
  | nil => rfl
  | cons a t ih => simp [List.foldl_cons, ih, linkRemoveW_paths]

theorem foldl_linkRemoveW_reconnect (l : List Link) (w : Watcher) :
    (l.foldl linkRemoveW w).reconnect = w.reconnect := by
  induction l generalizing w with
  | nil => rfl
  | cons a t ih => simp [List.foldl_cons, ih, linkRemoveW_reconnect]

theorem poplinksFrom_get_self (w : Watcher) (key : PPath) (startidx : Nat)
    (pw : PathWatch) (hpw : alGet w.paths key = some pw)
    (hlt : startidx < pw.links.length) :
    alGet (poplinksFrom w key startidx).paths key =
      some { pw with watch_complete := min 1 pw.watch_complete,
                     links := pw.links.take startidx } := by
  have hge : ¬ startidx ≥ pw.links.length := by omega
  simp only [poplinksFrom, hpw, hge, if_neg, ite_false]
  rw [modPW_get_self]
  have h2 : alGet ((pw.links.drop startidx).foldl linkRemoveW w).paths key = some pw := by
    rw [foldl_linkRemoveW_paths]
    exact hpw
  rw [h2]
  rfl

theorem poplinksFrom_get_self_big (w : Watcher) (key : PPath) (startidx : Nat)
    (pw : PathWatch) (hpw : alGet w.paths key = some pw)
    (hge : startidx ≥ pw.links.length) :
    poplinksFrom w key startidx = w := by
  simp [poplinksFrom, hpw, hge]

theorem poplinksFrom_reconnect (w : Watcher) (key : PPath) (startidx : Nat) :
    (poplinksFrom w key startidx).reconnect = w.reconnect := by
  cases hpw : alGet w.paths key with
  | none => simp [poplinksFrom, hpw]
  | some pw =>
    by_cases hge : startidx ≥ pw.links.length
    · simp [poplinksFrom, hpw, hge]
    · simp [poplinksFrom, hpw, hge, modPW_reconnect, foldl_linkRemoveW_reconnect]

theorem registerReconnectW_get_self (w : Watcher) (key : PPath) :
    alGet (registerReconnectW w key).paths key =
      (alGet w.paths key).map (fun pw => { pw with watch_complete := 0 }) := by
  simp [registerReconnectW, modPW_get_self]

theorem registerReconnectW_mem_self (w : Watcher) (key : PPath) :
    key ∈ (registerReconnectW w key).reconnect := by
  simp only [registerReconnectW]
  split
  · assumption
  · simp

/-! ## C4 -/

/-- C4: an event delivered to an intermediate link (not the leaf of a
fully watched chain) prunes the chain from the first stale index —
`link.idx + 1` for a directory-entry event (`MOVE|DELETE|CREATE`),
`link.idx` otherwise — reduces the completion state to at most
UNWATCHABLE, and marks the PathWatch REBUILD_NEEDED and enqueues it in
the reconnection work-set exactly when the event mask meets
`MOVED_TO|CREATE|UNMOUNT`. -/
theorem c4_intermediate_event_stale_range (w : Watcher) (key : PPath) (pw : PathWatch)
    (link : Link) (ev : RawEvent) (hpw : alGet w.paths key = some pw)
    (hidx : pw.links[link.idx]? = some link) (hwc : pw.watch_complete ≤ 2)
    (hnotleaf : ¬ (pw.watch_complete = 2 ∧ link.idx = pw.links.length - 1))
    (hnr : key ∉ w.reconnect) :
    ∃ pw2, alGet (pwHandleEvent w key link ev).1.paths key = some pw2 ∧
      pw2.links = pw.links.take (link.idx +
        (if ev.mask &&& (IN_MOVE ||| IN_DELETE ||| IN_CREATE) ≠ 0 then 1 else 0)) ∧
      pw2.watch_complete ≤ 1 ∧
      ((key ∈ (pwHandleEvent w key link ev).1.reconnect ∧ pw2.watch_complete = 0) ↔
        ev.mask &&& (IN_MOVED_TO ||| IN_CREATE ||| IN_UNMOUNT) ≠ 0) := by
  have hlen : link.idx < pw.links.length := by
    by_contra hcon
    rw [List.getElem?_eq_none (by omega)] at hidx
    exact Option.noConfusion hidx
  have hbr : (pwHandleEvent w key link ev).1 =
      (if ev.mask &&& (IN_MOVED_TO ||| IN_CREATE ||| IN_UNMOUNT) ≠ 0 then
        registerReconnectW (poplinksFrom w key (link.idx +
          (if ev.mask &&& (IN_MOVE ||| IN_DELETE ||| IN_CREATE) ≠ 0 then 1 else 0))) key
      else poplinksFrom w key (link.idx +
        (if ev.mask &&& (IN_MOVE ||| IN_DELETE ||| IN_CREATE) ≠ 0 then 1 else 0))) := by
    simp only [pwHandleEvent, hpw, hnotleaf, if_neg, ite_false]
  set i := link.idx +
    (if ev.mask &&& (IN_MOVE ||| IN_DELETE ||| IN_CREATE) ≠ 0 then 1 else 0) with hi
  by_cases hcase : i < pw.links.length
  · have hpop := poplinksFrom_get_self w key i pw hpw hcase
    by_cases hheal : ev.mask &&& (IN_MOVED_TO ||| IN_CREATE ||| IN_UNMOUNT) ≠ 0
    · refine ⟨{ pw with watch_complete := 0, links := pw.links.take i }, ?_, ?_, ?_, ?_⟩
      · rw [hbr, if_pos hheal, registerReconnectW_get_self, hpop]
        rfl
      · simp
      · simp
      · constructor
        · intro _
          exact hheal
        · intro _
          refine ⟨?_, rfl⟩
          rw [hbr, if_pos hheal]
          exact registerReconnectW_mem_self _ key
    · refine ⟨{ pw with watch_complete := min 1 pw.watch_complete, links := pw.links.take i }, ?_, ?_, ?_, ?_⟩
      · rw [hbr, if_neg hheal]
        exact hpop
      · simp
      · exact Nat.min_le_left _ _
      · constructor
        · intro hmem
          exfalso
          apply hnr
          have h5 := hmem.1
          rw [hbr, if_neg hheal, poplinksFrom_reconnect] at h5
          exact h5
        · intro hc
          exact absurd hc hheal
  · have hwc1 : pw.watch_complete ≤ 1 := by
      rcases Nat.lt_or_ge pw.watch_complete 2 with h | h
      · omega
      · have h2 : pw.watch_complete = 2 := by omega
        exfalso
        apply hnotleaf
        refine ⟨h2, ?_⟩
        have h6 : i ≤ link.idx + 1 := by
          rw [hi]
          split <;> omega
        omega
    have htake : pw.links.take i = pw.links := List.take_of_length_le (by omega)
    have hpop := poplinksFrom_get_self_big w key i pw hpw (by omega)
    by_cases hheal : ev.mask &&& (IN_MOVED_TO ||| IN_CREATE ||| IN_UNMOUNT) ≠ 0
    · refine ⟨{ pw with watch_complete := 0 }, ?_, ?_, ?_, ?_⟩
      · rw [hbr, if_pos hheal, hpop, registerReconnectW_get_self, hpw]
        rfl
      · simp [htake]
      · simp
      · constructor
        · intro _
          exact hheal
        · intro _
          refine ⟨?_, rfl⟩
          rw [hbr, if_pos hheal]
          exact registerReconnectW_mem_self _ key
    · refine ⟨pw, ?_, ?_, hwc1, ?_⟩
      · rw [hbr, if_neg hheal, hpop]
        exact hpw
      · simp [htake]
      · constructor
        · intro hmem
          exfalso
          apply hnr
          have h5 := hmem.1
          rw [hbr, if_neg hheal, hpop] at h5
          exact h5
        · intro hc
          exact absurd hc hheal

/-! ## C5 -/

/-- The synthetic-category table as the claim states it, read as a
function of the raw mask. -/
def specSynthCategory (mask : Nat) : Nat :=
  if mask &&& (IN_MOVED_FROM ||| IN_MOVE_SELF) ≠ 0 then IN_PATH_MOVED_FROM
  else if mask &&& IN_MOVED_TO ≠ 0 then IN_PATH_MOVED_TO
  else if mask &&& (IN_DELETE ||| IN_DELETE_SELF ||| IN_IGNORED) ≠ 0 then IN_PATH_DELETE
  else if mask &&& IN_CREATE ≠ 0 then IN_PATH_CREATE
  else if mask &&& IN_UNMOUNT ≠ 0 then IN_PATH_UNMOUNT
  else 0

/-- How many entries of the event map a raw mask meets. -/
def categoryHits (mask : Nat) : Nat :=
  (eventmapList.filter (fun mt => decide (mask &&& mt.1 ≠ 0))).length

/-- The foldl of the source's last-match-wins dictionary loop, written
as the equivalent nested conditional (highest priority last in the
insertion order). -/
theorem evttypeOf_expand (m : Nat) :
    evttypeOf m =
      (if m &&& IN_UNMOUNT ≠ 0 then IN_PATH_UNMOUNT
       else if m &&& IN_CREATE ≠ 0 then IN_PATH_CREATE
       else if m &&& (IN_DELETE ||| IN_DELETE_SELF ||| IN_IGNORED) ≠ 0 then IN_PATH_DELETE
       else if m &&& IN_MOVED_TO ≠ 0 then IN_PATH_MOVED_TO
       else if m &&& (IN_MOVED_FROM ||| IN_MOVE_SELF) ≠ 0 then IN_PATH_MOVED_FROM
       else 0) := by
  simp only [evttypeOf, eventmapList, List.foldl_cons, List.foldl_nil]

theorem categoryHits_expand (m : Nat) :
    categoryHits m =
      (if m &&& (IN_MOVED_FROM ||| IN_MOVE_SELF) ≠ 0 then 1 else 0) +
      ((if m &&& IN_MOVED_TO ≠ 0 then 1 else 0) +
      ((if m &&& (IN_DELETE ||| IN_DELETE_SELF ||| IN_IGNORED) ≠ 0 then 1 else 0) +
      ((if m &&& IN_CREATE ≠ 0 then 1 else 0) +
      (if m &&& IN_UNMOUNT ≠ 0 then 1 else 0)))) := by
  simp only [categoryHits, eventmapList, List.filter]
  by_cases h1 : m &&& (IN_MOVED_FROM ||| IN_MOVE_SELF) ≠ 0 <;>
    by_cases h2 : m &&& IN_MOVED_TO ≠ 0 <;>
    by_cases h3 : m &&& (IN_DELETE ||| IN_DELETE_SELF ||| IN_IGNORED) ≠ 0 <;>
    by_cases h4 : m &&& IN_CREATE ≠ 0 <;>
    by_cases h5 : m &&& IN_UNMOUNT ≠ 0 <;>
    simp [h1, h2, h3, h4, h5]

theorem evttypeOf_eq_spec (m : Nat) (h : categoryHits m = 1) :
    evttypeOf m = specSynthCategory m := by
  rw [evttypeOf_expand]
  rw [categoryHits_expand] at h
  unfold specSynthCategory
  split_ifs at h ⊢ <;> omega


/-- C5: the synthetic event emitted for an intermediate-link change
carries the claimed category of the raw mask with `ISDIR` OR'd in when
present, cookie 0, the originating watch-descriptor id, and as name the
full path of the component that changed (the link's named child for a
directory-entry event, the link's own path for a self event). -/
theorem c5_synthetic_event_fields (w : Watcher) (key : PPath) (pw : PathWatch)
    (link : Link) (ev : RawEvent) (hpw : alGet w.paths key = some pw)
    (hnotleaf : ¬ (pw.watch_complete = 2 ∧ link.idx = pw.links.length - 1))
    (hone : categoryHits ev.mask = 1) :
    (pwHandleEvent w key link ev).2 =
      [⟨ppStr pw.path, specSynthCategory ev.mask ||| (ev.mask &&& IN_ISDIR), 0,
        some (if ev.mask &&& selfEventMask = 0
              then ppStr (link.path.child (link.name.getD ""))
              else ppStr link.path), ev.wd⟩] := by
  have hbr : (pwHandleEvent w key link ev).2 =
      [⟨ppStr pw.path, evttypeOf ev.mask ||| (ev.mask &&& IN_ISDIR), 0,
        some (synthName link ev.mask), ev.wd⟩] := by
    simp only [pwHandleEvent, hpw, hnotleaf, if_neg, ite_false]
  rw [hbr, evttypeOf_eq_spec ev.mask hone, synthName]

/-! ## Concrete fixtures for the event-handling witnesses -/

/-- The intermediate link of `wTestfile` (watching `/home` for the entry
`testfile`). -/
def linkTF0 : Link :=
  ⟨0, 0, intermediateMask "testfile", ⟨true, ["home"]⟩, some "testfile",
   ["testfile"], some 0, some 1⟩

/-- The PathWatch stored in `wTestfile`. -/
def pwTF : PathWatch :=
  { path := pTestfile, mask := IN_OPEN,
    links := [linkTF0,
      ⟨1, 1, IN_OPEN, ⟨true, ["home", "testfile"]⟩, none, [], none, some 2⟩],
    watch_complete := 2, cwd := some ["home"] }

/-- A `MOVED_FROM` raw event on the intermediate descriptor. -/
def evMovedFrom : RawEvent := ⟨1, IN_MOVED_FROM, 7, some "testfile"⟩

/-- **C3, counterexample.** Dispatching the `MOVED_FROM` event on the
intermediate link of the fully-watched `testfile` fixture prunes the
chain: `_poplinks_from` caps the completion at 1 (not FULLY_WATCHED) and
only the heal-mask events (`MOVED_TO`/`CREATE`/`UNMOUNT`) register a
reconnect, so the watch ends outside the reconnection work-set —
refuting the claimed invariant for completion states other than 0. -/
theorem c3_counterexample :
    ¬ (∀ k pw, alGet (descrHandleEvent wTestfile evMovedFrom).1.paths k = some pw →
         pw.watch_complete ≠ 2 → k ∈ (descrHandleEvent wTestfile evMovedFrom).1.reconnect) := by
  intro h
  exact absurd (h pTestfile { pwTF with watch_complete := 1, links := [linkTF0] }
    (by decide) (by decide)) (by decide)

/-- Witness for C4: the `MOVED_FROM` event on the intermediate link of
the `testfile` chain prunes from index 1, leaves UNWATCHABLE, and does
not enqueue. -/
theorem c4_intermediate_event_stale_range_witness :
    ∃ pw2, alGet (pwHandleEvent wTestfile pTestfile linkTF0 evMovedFrom).1.paths
        pTestfile = some pw2 ∧
      pw2.links = pwTF.links.take (linkTF0.idx +
        (if evMovedFrom.mask &&& (IN_MOVE ||| IN_DELETE ||| IN_CREATE) ≠ 0 then 1
         else 0)) ∧
      pw2.watch_complete ≤ 1 ∧
      ((pTestfile ∈ (pwHandleEvent wTestfile pTestfile linkTF0 evMovedFrom).1.reconnect ∧
          pw2.watch_complete = 0) ↔
        evMovedFrom.mask &&& (IN_MOVED_TO ||| IN_CREATE ||| IN_UNMOUNT) ≠ 0) :=
  c4_intermediate_event_stale_range wTestfile pTestfile pwTF linkTF0 evMovedFrom
    (by decide) (by decide) (by decide) (by decide) (by decide)

/-- Witness for C5: the synthetic event emitted for that `MOVED_FROM` is
`PATH_MOVED_FROM` with cookie 0, wd 1 and the full path of the moved
entry. -/
theorem c5_synthetic_event_fields_witness :
    (pwHandleEvent wTestfile pTestfile linkTF0 evMovedFrom).2 =
      [⟨ppStr pwTF.path, specSynthCategory evMovedFrom.mask |||
          (evMovedFrom.mask &&& IN_ISDIR), 0,
        some (if evMovedFrom.mask &&& selfEventMask = 0
              then ppStr (linkTF0.path.child (linkTF0.name.getD ""))
              else ppStr linkTF0.path), evMovedFrom.wd⟩] :=
  c5_synthetic_event_fields wTestfile pTestfile pwTF linkTF0 evMovedFrom
    (by decide) (by decide) (by decide)

/-! ## The reconnection-set invariant (C3, amended) -/

/-- The amended invariant: every PathWatch in REBUILD_NEEDED state
(`watch_complete = 0`) is registered in the reconnection work-set. -/
def InvR (w : Watcher) : Prop :=
  ∀ k pw, alGet w.paths k = some pw → pw.watch_complete = 0 → k ∈ w.reconnect

/-- The completion state stored for a path. -/
def wcOf (w : Watcher) (k : PPath) : Option Nat :=
  (alGet w.paths k).map (fun pw => pw.watch_complete)

theorem alGet_alRemove_ne {α β : Type} [DecidableEq α] (l : List (α × β)) (k k2 : α)
    (h : k ≠ k2) : alGet (alRemove l k) k2 = alGet l k2 := by
  have h4 : ¬ k = k2 := h
  have h5 : ¬ k2 = k := fun hh => h hh.symm
  induction l with
  | nil => simp [alRemove]
  | cons a t ih =>
    by_cases h2 : a.1 = k
    · have h3 : ¬ a.1 = k2 := by rw [h2]; exact h
      simp [alRemove, alGet, h2, h3, h4]
    · by_cases h3 : a.1 = k2 <;> simp [alRemove, alGet, h2, h3, h5, ih]

theorem alGet_alRemove_self_nodup {α β : Type} [DecidableEq α] (l : List (α × β)) (k : α)
    (hnd : (l.map Prod.fst).Nodup) : alGet (alRemove l k) k = none := by
  induction l with
  | nil => simp [alRemove, alGet]
  | cons a t ih =>
    simp only [List.map_cons, List.nodup_cons] at hnd
    by_cases h2 : a.1 = k
    · rw [show alRemove (a :: t) k = t from by simp [alRemove, h2]]
      subst h2
      cases h3 : alGet t a.1 with
      | none => rfl
      | some v => exact absurd (List.mem_map_of_mem Prod.fst (alGet_mem h3)) hnd.1
    · rw [show alRemove (a :: t) k = a :: alRemove t k from by simp [alRemove, h2]]
      simp [alGet, h2, ih hnd.2]

theorem pwReconnect_of_missing (env : Env) (w : Watcher) (key : PPath)
    (h : alGet w.paths key = none) : pwReconnect env w key = (w, none) := by
  simp [pwReconnect, h]

theorem pwReconnect_of_nonzero (env : Env) (w : Watcher) (key : PPath) (pw : PathWatch)
    (h : alGet w.paths key = some pw) (h2 : ¬ pw.watch_complete = 0) :
    pwReconnect env w key = (w, none) := by
  simp [pwReconnect, h, h2]

theorem pwReconnect_run (env : Env) (w : Watcher) (key : PPath) (pw : PathWatch)
    (h : alGet w.paths key = some pw) (h2 : pw.watch_complete = 0) :
    pwReconnect env w key =
      consumeYields env w key (reconnectOutcome env pw).1 (reconnectOutcome env pw).2 := by
  simp [pwReconnect, h, h2]

theorem poplinksFrom_get_ne (w : Watcher) (key k2 : PPath) (startidx : Nat)
    (hne : key ≠ k2) :
    alGet (poplinksFrom w key startidx).paths k2 = alGet w.paths k2 := by
  cases hpw : alGet w.paths key with
  | none => simp [poplinksFrom, hpw]
  | some pw =>
    by_cases hge : startidx ≥ pw.links.length
    · simp [poplinksFrom, hpw, hge]
    · simp [poplinksFrom, hpw, hge, modPW_get_ne _ _ _ _ hne, foldl_linkRemoveW_paths]

theorem registerReconnectW_get_ne (w : Watcher) (key k2 : PPath) (hne : key ≠ k2) :
    alGet (registerReconnectW w key).paths k2 = alGet w.paths k2 := by
  simp [registerReconnectW, modPW_get_ne _ _ _ _ hne]

theorem registerReconnectW_reconnect_mono (w : Watcher) (key k2 : PPath)
    (h : k2 ∈ w.reconnect) : k2 ∈ (registerReconnectW w key).reconnect := by
  simp only [registerReconnectW, modPW_reconnect]
  split
  · exact h
  · exact List.mem_append_left _ h

theorem InvR_poplinksFrom (w : Watcher) (key : PPath) (startidx : Nat) (hw : InvR w) :
    InvR (poplinksFrom w key startidx) := by
  intro k pw2 hget h0
  rw [poplinksFrom_reconnect]
  by_cases hk : key = k
  · subst hk
    cases hpw : alGet w.paths key with
    | none =>
      rw [show poplinksFrom w key startidx = w from by simp [poplinksFrom, hpw]] at hget
      rw [hpw] at hget
      cases hget
    | some pw =>
      by_cases hge : startidx ≥ pw.links.length
      · rw [poplinksFrom_get_self_big w key startidx pw hpw hge, hpw] at hget
        obtain rfl : pw = pw2 := Option.some.inj hget
        exact hw key pw hpw h0
      · rw [poplinksFrom_get_self w key startidx pw hpw (by omega)] at hget
        obtain rfl : { pw with watch_complete := min 1 pw.watch_complete, links := pw.links.take startidx } = pw2 := Option.some.inj hget
        have h1 : min 1 pw.watch_complete = 0 := h0
        exact hw key pw hpw (by omega)
  · rw [poplinksFrom_get_ne w key k startidx hk] at hget
    exact hw k pw2 hget h0

theorem InvR_registerReconnectW (w : Watcher) (key : PPath) (hw : InvR w) :
    InvR (registerReconnectW w key) := by
  intro k pw2 hget h0
  by_cases hk : key = k
  · subst hk
    exact registerReconnectW_mem_self w key
  · rw [registerReconnectW_get_ne w key k hk] at hget
    exact registerReconnectW_reconnect_mono w key k (hw k pw2 hget h0)

theorem InvR_pwHandleEvent (w : Watcher) (key : PPath) (link : Link) (ev : RawEvent)
    (hw : InvR w) : InvR (pwHandleEvent w key link ev).1 := by
  cases hpw : alGet w.paths key with
  | none => simpa [pwHandleEvent, hpw] using hw
  | some pw =>
    by_cases hleaf : pw.watch_complete = 2 ∧ link.idx = pw.links.length - 1
    · by_cases hign : ev.mask &&& IN_IGNORED ≠ 0
      · by_cases hunm : ev.mask &&& IN_UNMOUNT ≠ 0
        · simpa [pwHandleEvent, hpw, hleaf, hign, hunm] using
            InvR_registerReconnectW _ key (InvR_poplinksFrom w key link.idx hw)
        · simpa [pwHandleEvent, hpw, hleaf, hign, hunm] using
            InvR_poplinksFrom w key link.idx hw
      · simpa [pwHandleEvent, hpw, hleaf, hign] using hw
    · by_cases hheal : ev.mask &&& (IN_MOVED_TO ||| IN_CREATE ||| IN_UNMOUNT) ≠ 0
      · simpa [pwHandleEvent, hpw, hleaf, hheal] using
          InvR_registerReconnectW _ key (InvR_poplinksFrom w key _ hw)
      · simpa [pwHandleEvent, hpw, hleaf, hheal] using InvR_poplinksFrom w key _ hw

theorem InvR_congr (w1 w2 : Watcher) (hp : w2.paths = w1.paths)
    (hr : w2.reconnect = w1.reconnect) (hw : InvR w1) : InvR w2 := by
  intro k pw hget h0
  rw [hr]
  rw [hp] at hget
  exact hw k pw hget h0

theorem InvR_dispatchOne (ev : RawEvent) (acc : Watcher × List EventOut) (e : CbEntry)
    (hw : InvR acc.1) : InvR (dispatchOne ev acc e).1 := by
  unfold dispatchOne
  split
  · exact hw
  · split
    · exact hw
    · split
      · exact hw
      · split
        · exact hw
        · exact InvR_pwHandleEvent acc.1 e.watchKey _ ev hw

theorem InvR_dispatchOne_fold (ev : RawEvent) (snap : List CbEntry)
    (acc : Watcher × List EventOut) (hw : InvR acc.1) :
    InvR (snap.foldl (dispatchOne ev) acc).1 := by
  induction snap generalizing acc with
  | nil => exact hw
  | cons e t ih =>
    rw [List.foldl_cons]
    exact ih _ (InvR_dispatchOne ev acc e hw)

theorem InvR_descrHandleEvent (w : Watcher) (ev : RawEvent) (hw : InvR w) :
    InvR (descrHandleEvent w ev).1 := by
  cases hd : alGet w.descrs ev.wd with
  | none =>
    rw [show descrHandleEvent w ev = (w, []) from by simp [descrHandleEvent, hd]]
    exact hw
  | some d =>
    simp only [descrHandleEvent, hd]
    by_cases hign : ev.mask &&& IN_IGNORED ≠ 0
    · rw [if_pos hign]
      apply InvR_congr _ _ rfl rfl
      apply InvR_dispatchOne_fold
      exact InvR_congr w _ rfl rfl hw
    · rw [if_neg hign]
      apply InvR_dispatchOne_fold
      exact InvR_congr w _ rfl rfl hw

theorem updCwd_wc (env : Env) (pw : PathWatch) (rc : Option Bool) :
    (updCwd env pw rc).watch_complete = pw.watch_complete := by
  cases rc with
  | none => rfl
  | some b => cases b <;> rfl

theorem map_wc_of_map_quad {o1 o2 : Option PathWatch}
    (h : o1.map (fun pw => (pw.path, pw.mask, pw.watch_complete, pw.cwd)) =
      o2.map (fun pw => (pw.path, pw.mask, pw.watch_complete, pw.cwd))) :
    o1.map (fun pw => pw.watch_complete) = o2.map (fun pw => pw.watch_complete) := by
  cases o1 <;> cases o2 <;> simp_all

theorem pwUpdate_reconnect (env : Env) (w : Watcher) (key : PPath) (nm : Nat)
    (rc : Option Bool) : (pwUpdate env w key nm rc).reconnect = w.reconnect := by
  unfold pwUpdate
  split
  · rfl
  · split
    · rfl
    · dsimp only
      split
      · split
        · rfl
        · rw [linkRemoveW_reconnect, addLeafW_reconnect]
          rfl
      · rfl

theorem pwUpdate_get_ne (env : Env) (w : Watcher) (key k2 : PPath) (nm : Nat)
    (rc : Option Bool) (hne : key ≠ k2) :
    alGet (pwUpdate env w key nm rc).paths k2 = alGet w.paths k2 := by
  unfold pwUpdate
  split
  · rfl
  · split
    · simp [setPW, alGet_alSet_ne _ _ _ _ hne]
    · dsimp only
      split
      · split
        · simp [setPW, alGet_alSet_ne _ _ _ _ hne]
        · rw [show (linkRemoveW _ _).paths = _ from linkRemoveW_paths _ _]
          rw [addLeafW_get_ne _ _ _ _ _ hne]
          simp [setPW, alGet_alSet_ne _ _ _ _ hne]
      · simp [setPW, alGet_alSet_ne _ _ _ _ hne]

theorem pwUpdate_wcOf (env : Env) (w : Watcher) (key k2 : PPath) (nm : Nat)
    (rc : Option Bool) : wcOf (pwUpdate env w key nm rc) k2 = wcOf w k2 := by
  by_cases hne : key = k2
  case neg =>
    unfold wcOf
    rw [pwUpdate_get_ne env w key k2 nm rc hne]
  case pos =>
    subst hne
    unfold wcOf pwUpdate
    cases hpw : alGet w.paths key with
    | none => simp [hpw]
    | some pw =>
      simp only [hpw]
      split
      · simp [setPW, alGet_alSet_self, updCwd_wc]
      · split
        · split
          · simp [setPW, alGet_alSet_self, updCwd_wc]
          · rw [show (linkRemoveW _ _).paths = _ from linkRemoveW_paths _ _]
            rename_i hwc2 old hlast
            have h4 : alGet (setPW (setPW w key
                { updCwd env pw rc with mask := pwUpdateMask (updCwd env pw rc).mask nm })
                key
                { { updCwd env pw rc with
                    mask := pwUpdateMask (updCwd env pw rc).mask nm } with
                  links := ({ updCwd env pw rc with
                    mask := pwUpdateMask (updCwd env pw rc).mask nm } : PathWatch).links.dropLast }).paths key =
                some { { updCwd env pw rc with
                    mask := pwUpdateMask (updCwd env pw rc).mask nm } with
                  links := ({ updCwd env pw rc with
                    mask := pwUpdateMask (updCwd env pw rc).mask nm } : PathWatch).links.dropLast } := by
              simp [setPW, alGet_alSet_self]
            have h5 := addLeafW_get_self_parts env (setPW (setPW w key
                { updCwd env pw rc with mask := pwUpdateMask (updCwd env pw rc).mask nm })
                key
                { { updCwd env pw rc with
                    mask := pwUpdateMask (updCwd env pw rc).mask nm } with
                  links := ({ updCwd env pw rc with
                    mask := pwUpdateMask (updCwd env pw rc).mask nm } : PathWatch).links.dropLast })
                key old.path
            have h6 := map_wc_of_map_quad h5
            rw [h4] at h6
            rw [h6]
            simp [updCwd_wc]
        · simp [setPW, alGet_alSet_self, updCwd_wc]

theorem InvR_pwUpdate (env : Env) (w : Watcher) (key : PPath) (nm : Nat)
    (rc : Option Bool) (hw : InvR w) : InvR (pwUpdate env w key nm rc) := by
  intro k pw2 hget h0
  rw [pwUpdate_reconnect]
  have hwc := pwUpdate_wcOf env w key k nm rc
  rw [show wcOf (pwUpdate env w key nm rc) k = some 0 from by simp [wcOf, hget, h0]] at hwc
  cases hget2 : alGet w.paths k with
  | none => rw [wcOf, hget2] at hwc; cases hwc
  | some pw3 =>
    rw [wcOf, hget2] at hwc
    exact hw k pw3 hget2 (by simpa using hwc.symm)

/-- A reconnect of a key whose entry (if any, and if REBUILD_NEEDED)
resolves to its leaf both completes that entry and raises nothing. -/
theorem pwReconnect_wc2_of_reaches (env : Env) (acc : Watcher) (k0 : PPath)
    (hs : ∀ pw, alGet acc.paths k0 = some pw → pw.watch_complete = 0 →
      reachesLeafB env (reconnectOutcome env pw).1 = true) :
    (∀ pw, alGet (pwReconnect env acc k0).1.paths k0 = some pw →
      pw.watch_complete ≠ 0) ∧ (pwReconnect env acc k0).2 = none := by
  cases hpw : alGet acc.paths k0 with
  | none =>
    rw [pwReconnect_of_missing env acc k0 hpw]
    refine ⟨?_, rfl⟩
    intro pw hget h0
    show False
    rw [show ((acc, (none : Option RErr)).1.paths) = acc.paths from rfl, hpw] at hget
    cases hget
  | some pw0 =>
    by_cases h00 : pw0.watch_complete = 0
    · rw [pwReconnect_run env acc k0 pw0 hpw h00]
      have h2 := consume_reaches env acc k0 (reconnectOutcome env pw0).1
        (reconnectOutcome env pw0).2 (hs pw0 hpw h00) (by simp [hpw])
      refine ⟨?_, h2.2⟩
      intro pw hget h0
      have h3 := h2.1
      rw [hget] at h3
      simp at h3
      omega
    · rw [pwReconnect_of_nonzero env acc k0 pw0 hpw h00]
      refine ⟨?_, rfl⟩
      intro pw hget h0
      rw [show ((acc, (none : Option RErr)).1.paths) = acc.paths from rfl, hpw] at hget
      obtain rfl : pw0 = pw := Option.some.inj hget
      exact h00 h0

theorem doReconnect_go (env : Env) (todo : List PPath) (acc : Watcher)
    (hacc : ∀ k pw, alGet acc.paths k = some pw → pw.watch_complete = 0 → k ∈ todo)
    (hset : ∀ k ∈ todo, ∀ pw, alGet acc.paths k = some pw → pw.watch_complete = 0 →
      reachesLeafB env (reconnectOutcome env pw).1 = true) :
    ∀ k pw, alGet (doReconnectGo env todo acc).1.paths k = some pw →
      pw.watch_complete ≠ 0 := by
  induction todo generalizing acc with
  | nil =>
    intro k pw hget h0
    exact absurd (hacc k pw hget h0) (List.not_mem_nil k)
  | cons k0 rest ih =>
    have hr := pwReconnect_wc2_of_reaches env acc k0 (hset k0 (List.mem_cons_self k0 rest))
    rw [show doReconnectGo env (k0 :: rest) acc =
        doReconnectGo env rest (pwReconnect env acc k0).1 from by
      rw [doReconnectGo]
      rw [show pwReconnect env acc k0 = ((pwReconnect env acc k0).1, none) from by
        rw [← hr.2]]]
    apply ih
    · intro k pw hget h0
      by_cases hk : k0 = k
      · subst hk
        exact absurd h0 (hr.1 pw hget)
      · rw [pwReconnect_get_ne env acc k0 k hk] at hget
        rcases List.mem_cons.mp (hacc k pw hget h0) with h | h
        · exact absurd h.symm hk
        · exact h
    · intro k hkmem pw hget h0
      by_cases hk : k0 = k
      · subst hk
        exact absurd h0 (hr.1 pw hget)
      · rw [pwReconnect_get_ne env acc k0 k hk] at hget
        exact hset k (List.mem_cons_of_mem k0 hkmem) pw hget h0

theorem InvR_doReconnectW (env : Env) (w : Watcher) (hw : InvR w)
    (hall : ∀ k ∈ w.reconnect, ∀ pw, alGet w.paths k = some pw →
      pw.watch_complete = 0 → reachesLeafB env (reconnectOutcome env pw).1 = true) :
    InvR (doReconnectW env w) := by
  intro k pw hget h0
  exact absurd h0 (doReconnect_go env w.reconnect { w with reconnect := [] }
    (fun k2 pw2 hg h02 => hw k2 pw2 hg h02)
    (fun k2 hk2 pw2 hg h02 => hall k2 hk2 pw2 hg h02) k pw hget)

theorem InvR_watcherAdd (env : Env) (w : Watcher) (p : PPath) (m : Nat)
    (rc : Option Bool) (hw : InvR w)
    (hs : alGet w.paths p = none →
      silentStopB env (reconnectOutcome env (mkPathWatch env p m rc)).1
        (reconnectOutcome env (mkPathWatch env p m rc)).2 = false) :
    InvR (watcherAdd env w p m rc).2 := by
  cases hnew : alGet w.paths p with
  | some pw0 =>
    rw [show (watcherAdd env w p m rc).2 = pwUpdate env w p m rc from by
      simp [watcherAdd, watcherAddFull, hnew]]
    exact InvR_pwUpdate env w p m rc hw
  | none =>
    have hget0 : alGet (setPW w p (mkPathWatch env p m rc)).paths p =
        some (mkPathWatch env p m rc) := by simp [setPW, alGet_alSet_self]
    have hwc0 : (mkPathWatch env p m rc).watch_complete = 0 := rfl
    have hrun : pwReconnect env (setPW w p (mkPathWatch env p m rc)) p =
        consumeYields env (setPW w p (mkPathWatch env p m rc)) p
          (reconnectOutcome env (mkPathWatch env p m rc)).1
          (reconnectOutcome env (mkPathWatch env p m rc)).2 :=
      pwReconnect_run env _ p _ hget0 hwc0
    cases hr : (pwReconnect env (setPW w p (mkPathWatch env p m rc)) p).2 with
    | none =>
      rw [show (watcherAdd env w p m rc).2 =
          (pwReconnect env (setPW w p (mkPathWatch env p m rc)) p).1 from by
        simp [watcherAdd, watcherAddFull, hnew, hr]]
      intro k pw2 hget h0
      rw [pwReconnect_reconnect]
      by_cases hk : p = k
      · subst hk
        have hreach : reachesLeafB env
            (reconnectOutcome env (mkPathWatch env p m rc)).1 = true := by
          rw [hrun] at hr
          exact reaches_of_not_silent env _ p _ _ (hs hnew) hr
        have h2 := (pwReconnect_wc2_of_reaches env (setPW w p (mkPathWatch env p m rc)) p
          (fun pw hg h02 => by
            rw [hget0] at hg
            exact (Option.some.inj hg) ▸ hreach)).1
        exact absurd h0 (h2 pw2 hget)
      · rw [pwReconnect_get_ne env _ p k hk] at hget
        rw [show alGet (setPW w p (mkPathWatch env p m rc)).paths k = alGet w.paths k from
          by simp [setPW, alGet_alSet_ne _ _ _ _ hk]] at hget
        exact hw k pw2 hget h0
    | some e =>
      rw [show (watcherAdd env w p m rc).2 = { (pwReconnect env (setPW w p (mkPathWatch env p m rc)) p).1 with paths := alRemove (pwReconnect env (setPW w p (mkPathWatch env p m rc)) p).1.paths p } from by simp [watcherAdd, watcherAddFull, hnew, hr]]
      intro k pw2 hget h0
      show k ∈ (pwReconnect env (setPW w p (mkPathWatch env p m rc)) p).1.reconnect
      rw [pwReconnect_reconnect]
      by_cases hk : p = k
      · subst hk
        rw [show ({ (pwReconnect env (setPW w p (mkPathWatch env p m rc)) p).1 with paths := alRemove (pwReconnect env (setPW w p (mkPathWatch env p m rc)) p).1.paths p } : Watcher).paths = alRemove (pwReconnect env (setPW w p (mkPathWatch env p m rc)) p).1.paths p from rfl] at hget
        rw [pwReconnect_paths_rm] at hget
        rw [show alRemove (setPW w p (mkPathWatch env p m rc)).paths p = w.paths from
          alRemove_alSet_absent w.paths p _ hnew] at hget
        rw [hnew] at hget
        cases hget
      · rw [show ({ (pwReconnect env (setPW w p (mkPathWatch env p m rc)) p).1 with paths := alRemove (pwReconnect env (setPW w p (mkPathWatch env p m rc)) p).1.paths p } : Watcher).paths = alRemove (pwReconnect env (setPW w p (mkPathWatch env p m rc)) p).1.paths p from rfl] at hget
        rw [alGet_alRemove_ne _ _ _ hk] at hget
        rw [pwReconnect_get_ne env _ p k hk] at hget
        rw [show alGet (setPW w p (mkPathWatch env p m rc)).paths k = alGet w.paths k from
          by simp [setPW, alGet_alSet_ne _ _ _ _ hk]] at hget
        exact hw k pw2 hget h0

theorem mem_map_fst_alSet {α β : Type} [DecidableEq α] {l : List (α × β)} {k x : α}
    {v : β} (h : x ∈ (alSet l k v).map Prod.fst) : x ∈ l.map Prod.fst ∨ x = k := by
  rcases List.mem_map.mp h with ⟨e, he, hx⟩
  rcases mem_alSet he with h2 | h2
  · right
    rw [← hx, h2]
  · left
    exact hx ▸ List.mem_map_of_mem Prod.fst h2

theorem nodup_keys_alSet {α β : Type} [DecidableEq α] (l : List (α × β)) (k : α) (v : β)
    (hnd : (l.map Prod.fst).Nodup) : ((alSet l k v).map Prod.fst).Nodup := by
  induction l with
  | nil => simp [alSet]
  | cons a t ih =>
    simp only [List.map_cons, List.nodup_cons] at hnd
    by_cases h2 : a.1 = k
    · rw [show alSet (a :: t) k v = (k, v) :: t from by simp [alSet, h2]]
      simp only [List.map_cons, List.nodup_cons]
      exact ⟨h2 ▸ hnd.1, hnd.2⟩
    · rw [show alSet (a :: t) k v = a :: alSet t k v from by simp [alSet, h2]]
      simp only [List.map_cons, List.nodup_cons]
      refine ⟨?_, ih hnd.2⟩
      intro hmem
      rcases mem_map_fst_alSet hmem with h3 | h3
      · exact hnd.1 h3
      · exact h2 h3

theorem poplinksFrom_nodup_keys (w : Watcher) (key : PPath) (startidx : Nat)
    (hnd : (w.paths.map Prod.fst).Nodup) :
    ((poplinksFrom w key startidx).paths.map Prod.fst).Nodup := by
  cases hpw : alGet w.paths key with
  | none => simpa [poplinksFrom, hpw] using hnd
  | some pw =>
    by_cases hge : startidx ≥ pw.links.length
    · simpa [poplinksFrom, hpw, hge] using hnd
    · simp only [poplinksFrom, hpw, hge, if_neg, ite_false]
      rw [modPW]
      split
      · rw [foldl_linkRemoveW_paths]
        exact hnd
      · simp only [setPW]
        apply nodup_keys_alSet
        rw [foldl_linkRemoveW_paths]
        exact hnd

theorem InvR_watcherRemove (w : Watcher) (key : PPath) (hw : InvR w)
    (hnd : (w.paths.map Prod.fst).Nodup) : InvR (watcherRemove w key) := by
  cases h : alGet w.paths key with
  | none => simpa [watcherRemove, h] using hw
  | some pw =>
    rw [show watcherRemove w key = { poplinksFrom w key 0 with
      paths := alRemove (poplinksFrom w key 0).paths key } from by simp [watcherRemove, h]]
    intro k pw2 hget h0
    by_cases hk : key = k
    · subst hk
      rw [alGet_alRemove_self_nodup _ _ (poplinksFrom_nodup_keys w key 0 hnd)] at hget
      cases hget
    · rw [show alGet (alRemove (poplinksFrom w key 0).paths key) k =
          alGet (poplinksFrom w key 0).paths k from alGet_alRemove_ne _ _ _ hk] at hget
      have h2 := InvR_poplinksFrom w key 0 hw k pw2 hget h0
      show k ∈ (poplinksFrom w key 0).reconnect
      exact h2

theorem InvR_pwQueueOverflow (w : Watcher) (key : PPath) (hw : InvR w) :
    InvR (pwQueueOverflow w key) :=
  InvR_registerReconnectW _ _ (InvR_poplinksFrom _ _ _ hw)

theorem InvR_foldQueueOverflow (ks : List PPath) (w : Watcher) (hw : InvR w) :
    InvR (ks.foldl pwQueueOverflow w) := by
  induction ks generalizing w with
  | nil => exact hw
  | cons k t ih => exact ih _ (InvR_pwQueueOverflow w k hw)

theorem InvR_watcherQueueOverflow (w : Watcher) (hw : InvR w) :
    InvR (watcherQueueOverflow w) :=
  InvR_foldQueueOverflow _ w hw

/-! ## C3 (amended) -/

/-- **C3 (amended).** Every PathWatch in REBUILD_NEEDED state
(`watch_complete = 0`) is a member of the reconnection work-set, and
this is preserved by every public operation and by event dispatch —
under the proviso that no reconnect run triggered by the operation stops
silently in a concurrent-modification fault (the code deliberately
leaves the completion at 0, awaiting the explaining kernel event — the
embedding's exhausted resolution budget is treated the same way) and
that every watch handed to the background pass resolves fully (a raising
resolution aborts the pass, stranding completion-0 watches outside the
already swapped-out set).  UNWATCHABLE watches (`watch_complete = 1`),
such as those left by `_poplinks_from` during event handling, are
deliberately not enqueued, which is what refutes the claim as stated. -/
theorem c3_rebuild_needed_is_enqueued (env : Env) (w : Watcher) (hw : InvR w) :
    (∀ p m rc, (alGet w.paths p = none →
        silentStopB env (reconnectOutcome env (mkPathWatch env p m rc)).1
          (reconnectOutcome env (mkPathWatch env p m rc)).2 = false) →
      InvR (watcherAdd env w p m rc).2) ∧
    (∀ key nm rc, InvR (watcherUpdate env w key nm rc)) ∧
    (∀ key, (w.paths.map Prod.fst).Nodup → InvR (watcherRemove w key)) ∧
    (∀ ev, InvR (descrHandleEvent w ev).1) ∧
    InvR (watcherQueueOverflow w) ∧
    ((∀ k ∈ w.reconnect, ∀ pw, alGet w.paths k = some pw → pw.watch_complete = 0 →
        reachesLeafB env (reconnectOutcome env pw).1 = true) →
      InvR (doReconnectW env w)) := by
  refine ⟨?_, ?_, ?_, ?_, ?_, ?_⟩
  · intro p m rc hs
    exact InvR_watcherAdd env w p m rc hw hs
  · intro key nm rc
    exact InvR_pwUpdate env w key nm rc hw
  · intro key hnd
    exact InvR_watcherRemove w key hw hnd
  · intro ev
    exact InvR_descrHandleEvent w ev hw
  · exact InvR_watcherQueueOverflow w hw
  · intro hall
    exact InvR_doReconnectW env w hw hall

/-- Witness for the amended C3, applied to the concrete watcher holding
`testfile` and the `add` conjunct. -/
theorem c3_rebuild_needed_is_enqueued_witness :
    InvR (watcherAdd envA wTestfile pTestfile IN_OPEN none).2 := by
  have hw : InvR wTestfile := by
    intro k pw hget h0
    rw [show wTestfile.paths = [(pTestfile, pwTF)] from by decide] at hget
    simp only [alGet] at hget
    split at hget
    · obtain rfl : pwTF = pw := Option.some.inj hget
      exact absurd h0 (by decide)
    · cases hget
  exact (c3_rebuild_needed_is_enqueued envA wTestfile hw).1 pTestfile IN_OPEN none
    (fun hnone => absurd hnone (by decide))

/-! ## The descriptor-table invariant (C6, amended) -/

/-- The links currently registered on a descriptor. -/
def cbEntries (d : Descriptor) : List CbEntry :=
  d.callbacks.flatMap (fun ne => ne.2)

/-- The number of descriptors in the table whose link set is empty
(each of them has been signalled for removal). -/
def emptyCount (ds : List (Nat × Descriptor)) : Nat :=
  (ds.filter (fun kd => kd.2.callbacks.isEmpty)).length

/-- The amended descriptor invariant: every registered link's mask is a
sub-mask of the descriptor's union-mask; all tabled descriptors are
still kernel-active; the descriptors with empty link sets are exactly
the ones counted by the pending-ignored counter; every kernel-table
entry points at a tabled descriptor with a non-empty link set; and the
kernel's id source is fresh for both tables. -/
def InvD (w : Watcher) : Prop :=
  (∀ wd d, alGet w.descrs wd = some d →
    (∀ x ∈ cbEntries d, x.mask ||| d.mask = d.mask) ∧ d.active = true ∧ d.wd = wd) ∧
  ((emptyCount w.descrs : Int) = w.pending) ∧
  (∀ e ∈ w.kernel.table, ∃ d, alGet w.descrs e.2 = some d ∧ d.callbacks ≠ []) ∧
  (∀ kd ∈ w.descrs, kd.1 < w.kernel.next) ∧
  (∀ e ∈ w.kernel.table, e.2 < w.kernel.next)

theorem alGet_none_of_lt {β : Type} (l : List (Nat × β)) (n : Nat)
    (h : ∀ kd ∈ l, kd.1 < n) : alGet l n = none := by
  induction l with
  | nil => rfl
  | cons a t ih =>
    have h1 : a.1 < n := h a (List.mem_cons_self a t)
    have h2 : ¬ a.1 = n := by omega
    simp only [alGet, h2, if_neg, ite_false]
    exact ih (fun kd hkd => h kd (List.mem_cons_of_mem a hkd))

theorem alSet_self_eq {α β : Type} [DecidableEq α] (l : List (α × β)) (k : α) (v : β)
    (h : alGet l k = some v) : alSet l k v = l := by
  induction l with
  | nil => cases h
  | cons a t ih =>
    by_cases h2 : a.1 = k
    · rw [show alGet (a :: t) k = some a.2 from by simp [alGet, h2]] at h
      have hv : v = a.2 := (Option.some.inj h).symm
      subst hv
      rw [show alSet (a :: t) k a.2 = (k, a.2) :: t from by simp [alSet, h2]]
      rw [← h2]
    · rw [show alGet (a :: t) k = alGet t k from by simp [alGet, h2]] at h
      rw [show alSet (a :: t) k v = a :: alSet t k v from by simp [alSet, h2]]
      rw [ih h]

theorem length_filter_snd_alSet_some {α β : Type} [DecidableEq α] (p : β → Bool)
    (l : List (α × β)) (k : α) (v old : β) (h : alGet l k = some old) :
    ((alSet l k v).filter (fun kd => p kd.2)).length + (if p old then 1 else 0) =
      (l.filter (fun kd => p kd.2)).length + (if p v then 1 else 0) := by
  induction l with
  | nil => cases h
  | cons a t ih =>
    by_cases h2 : a.1 = k
    · rw [show alGet (a :: t) k = some a.2 from by simp [alGet, h2]] at h
      obtain rfl : a.2 = old := Option.some.inj h
      rw [show alSet (a :: t) k v = (k, v) :: t from by simp [alSet, h2]]
      rw [List.filter_cons, List.filter_cons]
      by_cases hv : p v = true <;> by_cases ho : p a.2 = true <;>
        simp [hv, ho] <;> omega
    · rw [show alGet (a :: t) k = alGet t k from by simp [alGet, h2]] at h
      rw [show alSet (a :: t) k v = a :: alSet t k v from by simp [alSet, h2]]
      rw [List.filter_cons, List.filter_cons]
      have h3 := ih h
      by_cases ha : p a.2 = true <;> simp [ha] <;> omega

theorem length_filter_snd_alSet_none {α β : Type} [DecidableEq α] (p : β → Bool)
    (l : List (α × β)) (k : α) (v : β) (h : alGet l k = none) :
    ((alSet l k v).filter (fun kd => p kd.2)).length =
      (l.filter (fun kd => p kd.2)).length + (if p v then 1 else 0) := by
  induction l with
  | nil => by_cases hv : p v = true <;> simp [alSet, List.filter_cons, hv]
  | cons a t ih =>
    by_cases h2 : a.1 = k
    · rw [show alGet (a :: t) k = some a.2 from by simp [alGet, h2]] at h
      cases h
    · rw [show alGet (a :: t) k = alGet t k from by simp [alGet, h2]] at h
      rw [show alSet (a :: t) k v = a :: alSet t k v from by simp [alSet, h2]]
      by_cases ha : p a.2 = true <;> simp [List.filter_cons, ha, ih h] <;> omega

theorem mem_removeFirstBy {α : Type} {p : α → Bool} {l : List α} {x : α}
    (h : x ∈ removeFirstBy p l) : x ∈ l := by
  induction l with
  | nil => simpa [removeFirstBy] using h
  | cons a t ih =>
    by_cases h2 : p a = true
    · rw [show removeFirstBy p (a :: t) = t from by simp [removeFirstBy, h2]] at h
      exact List.mem_cons_of_mem a h
    · rw [show removeFirstBy p (a :: t) = a :: removeFirstBy p t from by
        simp [removeFirstBy, h2]] at h
      rcases List.mem_cons.mp h with h3 | h3
      · exact h3 ▸ List.mem_cons_self a t
      · exact List.mem_cons_of_mem a (ih h3)

theorem mem_cbEntries_elem {d : Descriptor} {ne : Option String × List CbEntry}
    {x : CbEntry} (hne : ne ∈ d.callbacks) (hx : x ∈ ne.2) : x ∈ cbEntries d := by
  unfold cbEntries
  exact List.mem_flatMap.mpr ⟨ne, hne, hx⟩

theorem mem_cbEntries_descrRegister {d : Descriptor} {name : Option String}
    {e x : CbEntry} (h : x ∈ cbEntries (descrRegister d name e)) :
    x ∈ cbEntries d ∨ x = e := by
  unfold cbEntries descrRegister at h
  rcases List.mem_flatMap.mp h with ⟨ne, hne, hx⟩
  rcases mem_alSet hne with h2 | h2
  · subst h2
    simp only at hx
    rcases List.mem_append.mp hx with h3 | h3
    · cases hget : alGet d.callbacks name with
      | none => rw [hget] at h3; cases h3
      | some es =>
        rw [hget] at h3
        exact Or.inl (mem_cbEntries_elem (alGet_mem hget) h3)
    · exact Or.inr (List.mem_singleton.mp h3)
  · exact Or.inl (mem_cbEntries_elem h2 hx)

theorem isEmpty_false_of_ne_nil {d : Descriptor} (h : d.callbacks ≠ []) :
    d.callbacks.isEmpty = false := by
  cases hc : d.callbacks with
  | nil => exact absurd hc h
  | cons a t => rfl

theorem emptyCount_alSet_ne_ne {ds : List (Nat × Descriptor)} {wd : Nat}
    {d2 old : Descriptor} (h : alGet ds wd = some old) (h1 : old.callbacks ≠ [])
    (h2 : d2.callbacks ≠ []) : emptyCount (alSet ds wd d2) = emptyCount ds := by
  have h3 := length_filter_snd_alSet_some (fun d => d.callbacks.isEmpty) ds wd d2 old h
  simp only [] at h3
  simp only [isEmpty_false_of_ne_nil h1, isEmpty_false_of_ne_nil h2] at h3
  simp at h3
  simpa [emptyCount] using h3

theorem emptyCount_alSet_ne_empty {ds : List (Nat × Descriptor)} {wd : Nat}
    {d2 old : Descriptor} (h : alGet ds wd = some old) (h1 : old.callbacks ≠ [])
    (h2 : d2.callbacks = []) : emptyCount (alSet ds wd d2) = emptyCount ds + 1 := by
  have h3 := length_filter_snd_alSet_some (fun d => d.callbacks.isEmpty) ds wd d2 old h
  simp only [] at h3
  simp only [isEmpty_false_of_ne_nil h1, show d2.callbacks.isEmpty = true from by
    simp [h2]] at h3
  simp at h3
  simp only [emptyCount]
  omega

theorem emptyCount_alSet_none_ne {ds : List (Nat × Descriptor)} {wd : Nat}
    {d2 : Descriptor} (h : alGet ds wd = none) (h2 : d2.callbacks ≠ []) :
    emptyCount (alSet ds wd d2) = emptyCount ds := by
  have h3 := length_filter_snd_alSet_none (fun d => d.callbacks.isEmpty) ds wd d2 h
  simp only [] at h3
  simp only [isEmpty_false_of_ne_nil h2] at h3
  simp at h3
  simpa [emptyCount] using h3

theorem alSet_ne_nil {α β : Type} [DecidableEq α] (l : List (α × β)) (k : α) (v : β) :
    alSet l k v ≠ [] := by
  cases l with
  | nil => simp [alSet]
  | cons a t =>
    by_cases h2 : a.1 = k
    · rw [show alSet (a :: t) k v = (k, v) :: t from by simp [alSet, h2]]
      simp
    · rw [show alSet (a :: t) k v = a :: alSet t k v from by simp [alSet, h2]]
      simp

theorem InvD_congrD (w1 w2 : Watcher) (hd : w2.descrs = w1.descrs)
    (hp : w2.pending = w1.pending) (hk : w2.kernel = w1.kernel) (hw : InvD w1) :
    InvD w2 := by
  unfold InvD at hw ⊢
  rw [hd, hp, hk]
  exact hw

theorem InvD_createwatch (env : Env) (w : Watcher) (loc : PPath) (name : Option String)
    (e : CbEntry) (hw : InvD w) : InvD (createwatch env w loc name e).2 := by
  obtain ⟨hub, hcnt, hreach, hfd, hfk⟩ := hw
  cases hk : alGet w.kernel.table (osNorm (ppDen env.cwdN loc)) with
  | some wd =>
    obtain ⟨dd, hdd, hdne⟩ := hreach _ (alGet_mem hk)
    have hres : (createwatch env w loc name e).2 =
        { w with descrs := alSet w.descrs wd (descrRegister dd name e) } := by
      simp [createwatch, kernelAddWatch, hk, hdd]
    rw [hres]
    refine ⟨?_, ?_, ?_, ?_, ?_⟩
    · intro wd2 d2 hget
      by_cases hw2 : wd = wd2
      · subst hw2
        rw [alGet_alSet_self] at hget
        obtain rfl : descrRegister dd name e = d2 := Option.some.inj hget
        constructor
        · intro x hx
          rcases mem_cbEntries_descrRegister hx with h2 | h2
          · have h3 := (hub wd dd hdd).1 x h2
            show x.mask ||| (dd.mask ||| e.mask) = dd.mask ||| e.mask
            rw [← Nat.or_assoc, h3]
          · subst h2
            show x.mask ||| (dd.mask ||| x.mask) = dd.mask ||| x.mask
            rw [Nat.or_comm dd.mask x.mask, ← Nat.or_assoc, Nat.or_self,
              Nat.or_comm x.mask dd.mask]
        · exact ⟨(hub wd dd hdd).2.1, (hub wd dd hdd).2.2⟩
      · rw [alGet_alSet_ne _ _ _ _ hw2] at hget
        exact hub wd2 d2 hget
    · show (emptyCount (alSet w.descrs wd (descrRegister dd name e)) : Int) = w.pending
      have h4 : (descrRegister dd name e).callbacks ≠ [] := by
        have h5 := alSet_ne_nil dd.callbacks name ((alGet dd.callbacks name).getD [] ++ [e])
        simpa [descrRegister] using h5
      rw [emptyCount_alSet_ne_ne hdd hdne h4]
      exact hcnt
    · intro e2 he2
      by_cases hw2 : wd = e2.2
      · refine ⟨descrRegister dd name e, by rw [← hw2, alGet_alSet_self], ?_⟩
        simpa [descrRegister] using alSet_ne_nil dd.callbacks name
          ((alGet dd.callbacks name).getD [] ++ [e])
      · obtain ⟨d3, hd3, hd3ne⟩ := hreach e2 he2
        exact ⟨d3, by rw [alGet_alSet_ne _ _ _ _ hw2]; exact hd3, hd3ne⟩
    · intro kd hkd
      rcases mem_alSet hkd with h2 | h2
      · rw [h2]
        exact hfk _ (alGet_mem hk)
      · exact hfd kd h2
    · exact hfk
  | none =>
    have hd0 : alGet w.descrs w.kernel.next = none := alGet_none_of_lt _ _ hfd
    have hres : (createwatch env w loc name e).2 =
        { w with
          kernel := ⟨alSet w.kernel.table (osNorm (ppDen env.cwdN loc)) w.kernel.next,
            w.kernel.next + 1⟩,
          descrs := alSet w.descrs w.kernel.next
            ⟨w.kernel.next, 0 ||| e.mask, true, [(name, [e])]⟩ } := by
      simp [createwatch, kernelAddWatch, hk, hd0, descrRegister, alGet, alSet]
    rw [hres]
    refine ⟨?_, ?_, ?_, ?_, ?_⟩
    · intro wd2 d2 hget
      by_cases hw2 : w.kernel.next = wd2
      · subst hw2
        rw [alGet_alSet_self] at hget
        obtain rfl : (⟨w.kernel.next, 0 ||| e.mask, true, [(name, [e])]⟩ : Descriptor)
            = d2 := Option.some.inj hget
        refine ⟨?_, rfl, rfl⟩
        intro x hx
        have h2 : x = e := by simpa [cbEntries] using hx
        subst h2
        show x.mask ||| (0 ||| x.mask) = 0 ||| x.mask
        simp [Nat.zero_or, Nat.or_self]
      · rw [alGet_alSet_ne _ _ _ _ hw2] at hget
        exact hub wd2 d2 hget
    · show (emptyCount (alSet w.descrs w.kernel.next
          ⟨w.kernel.next, 0 ||| e.mask, true, [(name, [e])]⟩) : Int) = w.pending
      rw [emptyCount_alSet_none_ne hd0 (by simp)]
      exact hcnt
    · intro e2 he2
      rcases mem_alSet he2 with h2 | h2
      · refine ⟨⟨w.kernel.next, 0 ||| e.mask, true, [(name, [e])]⟩, ?_, by simp⟩
        rw [h2]
        exact alGet_alSet_self _ _ _
      · obtain ⟨d3, hd3, hd3ne⟩ := hreach e2 h2
        have hne2 : w.kernel.next ≠ e2.2 := by
          have := hfk e2 h2
          omega
        exact ⟨d3, by rw [alGet_alSet_ne _ _ _ _ hne2]; exact hd3, hd3ne⟩
    · intro kd hkd
      rcases mem_alSet hkd with h2 | h2
      · rw [h2]
        simp
      · have := hfd kd h2
        simp only
        omega
    · intro e2 he2
      rcases mem_alSet he2 with h2 | h2
      · rw [h2]
        simp
      · have := hfk e2 h2
        simp only
        omega

/-! ## Preservation of the descriptor invariant by each operation -/

theorem InvD_shrink_nonempty (w : Watcher) (wd : Nat) (d d2 : Descriptor)
    (hd : alGet w.descrs wd = some d) (hdne : d.callbacks ≠ [])
    (hsub : ∀ x ∈ cbEntries d2, x ∈ cbEntries d)
    (hmask : d2.mask = d.mask) (hact : d2.active = d.active) (hwdf : d2.wd = d.wd)
    (hne2 : d2.callbacks ≠ []) (hw : InvD w) :
    InvD { w with descrs := alSet w.descrs wd d2 } := by
  obtain ⟨hub, hcnt, hreach, hfd, hfk⟩ := hw
  refine ⟨?_, ?_, ?_, ?_, ?_⟩
  · intro wd2 dx hget
    by_cases hw2 : wd = wd2
    · subst hw2
      rw [alGet_alSet_self] at hget
      obtain rfl : d2 = dx := Option.some.inj hget
      refine ⟨?_, ?_, ?_⟩
      · intro x hx
        rw [hmask]
        exact (hub wd d hd).1 x (hsub x hx)
      · rw [hact]
        exact (hub wd d hd).2.1
      · rw [hwdf]
        exact (hub wd d hd).2.2
    · rw [alGet_alSet_ne _ _ _ _ hw2] at hget
      exact hub wd2 dx hget
  · show (emptyCount (alSet w.descrs wd d2) : Int) = w.pending
    rw [emptyCount_alSet_ne_ne hd hdne hne2]
    exact hcnt
  · intro e2 he2
    by_cases hw2 : wd = e2.2
    · exact ⟨d2, by rw [← hw2]; exact alGet_alSet_self _ _ _, hne2⟩
    · obtain ⟨d3, hd3, hd3ne⟩ := hreach e2 he2
      exact ⟨d3, by rw [alGet_alSet_ne _ _ _ _ hw2]; exact hd3, hd3ne⟩
  · intro kd hkd
    rcases mem_alSet hkd with h2 | h2
    · rw [h2]
      exact hfd (wd, d) (alGet_mem hd)
    · exact hfd kd h2
  · exact hfk

theorem InvD_shrink_empty (w : Watcher) (wd : Nat) (d d2 : Descriptor)
    (hd : alGet w.descrs wd = some d) (hdne : d.callbacks ≠ [])
    (hact : d2.active = true) (hwdf : d2.wd = wd) (hemp : d2.callbacks = [])
    (hw : InvD w) :
    InvD (signalEmpty { w with descrs := alSet w.descrs wd d2 } d2) := by
  obtain ⟨hub, hcnt, hreach, hfd, hfk⟩ := hw
  have hres : signalEmpty { w with descrs := alSet w.descrs wd d2 } d2 = { w with descrs := alSet w.descrs wd d2, removeLog := w.removeLog ++ [d2.wd], kernel := { w.kernel with table := w.kernel.table.filter (fun e => e.2 ≠ d2.wd) }, pending := w.pending + 1 } := by
    simp [signalEmpty, hact]
  rw [hres]
  refine ⟨?_, ?_, ?_, ?_, ?_⟩
  · intro wd2 dx hget
    by_cases hw2 : wd = wd2
    · subst hw2
      rw [alGet_alSet_self] at hget
      obtain rfl : d2 = dx := Option.some.inj hget
      refine ⟨?_, hact, hwdf⟩
      intro x hx
      rw [show cbEntries d2 = [] from by simp [cbEntries, hemp]] at hx
      cases hx
    · rw [alGet_alSet_ne _ _ _ _ hw2] at hget
      exact hub wd2 dx hget
  · show (emptyCount (alSet w.descrs wd d2) : Int) = w.pending + 1
    rw [emptyCount_alSet_ne_empty hd hdne hemp]
    push_cast
    omega
  · intro e2 he2
    have h3 : e2 ∈ w.kernel.table ∧ ¬ e2.2 = d2.wd := by
      have h4 := List.mem_filter.mp he2
      refine ⟨h4.1, ?_⟩
      simpa using h4.2
    have hw2 : wd ≠ e2.2 := by
      rw [← hwdf]
      exact fun hh => h3.2 hh.symm
    obtain ⟨d3, hd3, hd3ne⟩ := hreach e2 h3.1
    exact ⟨d3, by rw [alGet_alSet_ne _ _ _ _ hw2]; exact hd3, hd3ne⟩
  · intro kd hkd
    rcases mem_alSet hkd with h2 | h2
    · rw [h2]
      exact hfd (wd, d) (alGet_mem hd)
    · exact hfd kd h2
  · intro e2 he2
    exact hfk e2 (List.mem_filter.mp he2).1

theorem cbEntries_sub_alRemove {d : Descriptor} {name : Option String} {x : CbEntry}
    (hx : x ∈ cbEntries { d with callbacks := alRemove d.callbacks name }) :
    x ∈ cbEntries d := by
  unfold cbEntries at hx ⊢
  rcases List.mem_flatMap.mp hx with ⟨ne, hne, hxne⟩
  exact List.mem_flatMap.mpr ⟨ne, mem_alRemove hne, hxne⟩

theorem cbEntries_sub_alSet_sub {d : Descriptor} {name : Option String}
    {entries entries2 : List CbEntry} {x : CbEntry}
    (hcb : alGet d.callbacks name = some entries)
    (hsubE : ∀ y ∈ entries2, y ∈ entries)
    (hx : x ∈ cbEntries { d with callbacks := alSet d.callbacks name entries2 }) :
    x ∈ cbEntries d := by
  unfold cbEntries at hx ⊢
  rcases List.mem_flatMap.mp hx with ⟨ne, hne, hxne⟩
  rcases mem_alSet hne with h2 | h2
  · subst h2
    exact List.mem_flatMap.mpr ⟨(name, entries), alGet_mem hcb, hsubE x hxne⟩
  · exact List.mem_flatMap.mpr ⟨ne, h2, hxne⟩

theorem InvD_linkRemoveW (w : Watcher) (link : Link) (hw : InvD w) :
    InvD (linkRemoveW w link) := by
  cases hwd : link.wd with
  | none =>
    rw [show linkRemoveW w link = w from by simp [linkRemoveW, hwd]]
    exact hw
  | some wd =>
    cases hd : alGet w.descrs wd with
    | none =>
      rw [show linkRemoveW w link = w from by simp [linkRemoveW, hwd, hd]]
      exact hw
    | some d =>
      cases hcb : alGet d.callbacks link.name with
      | none =>
        rw [show linkRemoveW w link = w from by simp [linkRemoveW, hwd, hd, hcb]]
        exact hw
      | some entries =>
        have hdne : d.callbacks ≠ [] := by
          intro hnil
          rw [hnil] at hcb
          simp [alGet] at hcb
        by_cases hre : removeFirstBy (fun e => e.lid = link.lid) entries = []
        · by_cases hemp : alRemove d.callbacks link.name = []
          · rw [show linkRemoveW w link = signalEmpty { w with descrs := alSet w.descrs wd { d with callbacks := ([] : List (Option String × List CbEntry)) } } { d with callbacks := ([] : List (Option String × List CbEntry)) } from by simp [linkRemoveW, hwd, hd, hcb, hre, hemp]]
            exact InvD_shrink_empty w wd d _ hd hdne ((hw.1 wd d hd).2.1) ((hw.1 wd d hd).2.2) rfl hw
          · rw [show linkRemoveW w link = { w with descrs := alSet w.descrs wd { d with callbacks := alRemove d.callbacks link.name } } from by simp [linkRemoveW, hwd, hd, hcb, hre, hemp]]
            exact InvD_shrink_nonempty w wd d _ hd hdne (fun x hx => cbEntries_sub_alRemove hx) rfl rfl rfl hemp hw
        · have hne2 : alSet d.callbacks link.name (removeFirstBy (fun e => e.lid = link.lid) entries) ≠ [] := alSet_ne_nil _ _ _
          rw [show linkRemoveW w link = { w with descrs := alSet w.descrs wd { d with callbacks := alSet d.callbacks link.name (removeFirstBy (fun e => e.lid = link.lid) entries) } } from by simp [linkRemoveW, hwd, hd, hcb, hre, hne2]]
          exact InvD_shrink_nonempty w wd d _ hd hdne (fun x hx => cbEntries_sub_alSet_sub hcb (fun y hy => mem_removeFirstBy hy) hx) rfl rfl rfl hne2 hw

theorem InvD_foldl_linkRemoveW (l : List Link) (w : Watcher) (hw : InvD w) :
    InvD (l.foldl linkRemoveW w) := by
  induction l generalizing w with
  | nil => exact hw
  | cons a t ih =>
    rw [List.foldl_cons]
    exact ih _ (InvD_linkRemoveW w a hw)

theorem InvD_modPW (w : Watcher) (key : PPath) (f : PathWatch → PathWatch)
    (hw : InvD w) : InvD (modPW w key f) :=
  InvD_congrD w (modPW w key f) (modPW_descrs w key f) (modPW_pending w key f)
    (modPW_kernel w key f) hw

theorem InvD_setWC (w : Watcher) (key : PPath) (v : Nat) (hw : InvD w) :
    InvD (setWC w key v) := InvD_modPW w key _ hw

theorem InvD_setPW (w : Watcher) (key : PPath) (pw : PathWatch) (hw : InvD w) :
    InvD (setPW w key pw) := InvD_congrD w _ rfl rfl rfl hw

theorem InvD_poplinksFrom (w : Watcher) (key : PPath) (i : Nat) (hw : InvD w) :
    InvD (poplinksFrom w key i) := by
  cases hpw : alGet w.paths key with
  | none =>
    rw [show poplinksFrom w key i = w from by simp [poplinksFrom, hpw]]
    exact hw
  | some pw =>
    by_cases hge : i ≥ pw.links.length
    · rw [show poplinksFrom w key i = w from by simp [poplinksFrom, hpw, hge]]
      exact hw
    · rw [show poplinksFrom w key i = modPW ((pw.links.drop i).foldl linkRemoveW w) key (fun pw2 => { pw2 with watch_complete := min 1 pw2.watch_complete, links := pw2.links.take i }) from by simp [poplinksFrom, hpw, hge]]
      exact InvD_modPW _ key _ (InvD_foldl_linkRemoveW _ w hw)

theorem InvD_registerReconnectW (w : Watcher) (key : PPath) (hw : InvD w) :
    InvD (registerReconnectW w key) := by
  refine InvD_congrD (modPW w key (fun pw => { pw with watch_complete := 0 })) _ rfl rfl rfl ?_
  exact InvD_modPW w key _ hw

theorem InvD_addLinkW (env : Env) (w : Watcher) (key : PPath) (m : Nat) (loc : PPath)
    (name : Option String) (rest : List String) (lc : Option Nat) (hw : InvD w) :
    InvD (addLinkW env w key m loc name rest lc) := by
  unfold addLinkW
  split
  · exact hw
  · dsimp only
    apply InvD_setPW
    apply InvD_createwatch
    exact InvD_congrD w _ rfl rfl rfl hw

theorem InvD_addLeafW (env : Env) (w : Watcher) (key : PPath) (loc : PPath)
    (hw : InvD w) : InvD (addLeafW env w key loc) := by
  unfold addLeafW
  split
  · exact hw
  · exact InvD_addLinkW env w key _ loc none [] none hw

theorem InvD_addPathElementW (env : Env) (w : Watcher) (key : PPath) (loc : PPath)
    (rest : List String) (lc : Nat) (hw : InvD w) :
    InvD (addPathElementW env w key loc rest lc) := by
  unfold addPathElementW
  split
  · exact hw
  · exact InvD_addLinkW env w key _ loc _ _ (some lc) hw

theorem InvD_consume (env : Env) (w : Watcher) (key : PPath) (ys : List RYield)
    (err : Option RErr) (hw : InvD w) : InvD (consumeYields env w key ys err).1 := by
  induction ys generalizing w with
  | nil =>
    cases err with
    | none => exact hw
    | some e => cases e <;> exact hw
  | cons y t ih =>
    by_cases h1 : y.cnt > env.symlinkmax
    · rw [show (consumeYields env w key (y :: t) err).1 = w from by
        simp [consumeYields, h1]]
      exact hw
    · by_cases h2 : y.rest = []
      · rw [show (consumeYields env w key (y :: t) err).1 =
            setWC (addLeafW env w key y.loc) key 2 from by simp [consumeYields, h1, h2]]
        exact InvD_setWC _ key 2 (InvD_addLeafW env w key y.loc hw)
      · rw [show consumeYields env w key (y :: t) err =
            consumeYields env (addPathElementW env w key y.loc y.rest y.cnt) key t err
          from by simp [consumeYields, h1, h2]]
        exact ih _ (InvD_addPathElementW env w key y.loc y.rest y.cnt hw)

theorem InvD_pwReconnect (env : Env) (w : Watcher) (key : PPath) (hw : InvD w) :
    InvD (pwReconnect env w key).1 := by
  cases h : alGet w.paths key with
  | none =>
    rw [pwReconnect_of_missing env w key h]
    exact hw
  | some pw =>
    by_cases h2 : pw.watch_complete = 0
    · rw [pwReconnect_run env w key pw h h2]
      exact InvD_consume env w key _ _ hw
    · rw [pwReconnect_of_nonzero env w key pw h h2]
      exact hw

theorem InvD_pwUpdate (env : Env) (w : Watcher) (key : PPath) (nm : Nat)
    (rc : Option Bool) (hw : InvD w) : InvD (pwUpdate env w key nm rc) := by
  unfold pwUpdate
  split
  · exact hw
  · dsimp only
    split
    · exact InvD_setPW w key _ hw
    · split
      · split
        · exact InvD_setPW w key _ hw
        · exact InvD_linkRemoveW _ _ (InvD_addLeafW env _ key _ (InvD_setPW _ key _ (InvD_setPW w key _ hw)))
      · exact InvD_setPW w key _ hw

theorem InvD_watcherAdd (env : Env) (w : Watcher) (p : PPath) (m : Nat)
    (rc : Option Bool) (hw : InvD w) : InvD (watcherAdd env w p m rc).2 := by
  cases hnew : alGet w.paths p with
  | some pw0 =>
    rw [show (watcherAdd env w p m rc).2 = pwUpdate env w p m rc from by
      simp [watcherAdd, watcherAddFull, hnew]]
    exact InvD_pwUpdate env w p m rc hw
  | none =>
    cases hr : (pwReconnect env (setPW w p (mkPathWatch env p m rc)) p).2 with
    | none =>
      rw [show (watcherAdd env w p m rc).2 =
          (pwReconnect env (setPW w p (mkPathWatch env p m rc)) p).1 from by
        simp [watcherAdd, watcherAddFull, hnew, hr]]
      exact InvD_pwReconnect env _ p (InvD_setPW w p _ hw)
    | some e =>
      rw [show (watcherAdd env w p m rc).2 = { (pwReconnect env (setPW w p (mkPathWatch env p m rc)) p).1 with paths := alRemove (pwReconnect env (setPW w p (mkPathWatch env p m rc)) p).1.paths p } from by simp [watcherAdd, watcherAddFull, hnew, hr]]
      exact InvD_congrD _ _ rfl rfl rfl
        (InvD_pwReconnect env _ p (InvD_setPW w p _ hw))

theorem InvD_watcherRemove (w : Watcher) (key : PPath) (hw : InvD w) :
    InvD (watcherRemove w key) := by
  unfold watcherRemove
  split
  · exact hw
  · dsimp only
    exact InvD_congrD (poplinksFrom w key 0) _ rfl rfl rfl (InvD_poplinksFrom w key 0 hw)

theorem InvD_pwQueueOverflow (w : Watcher) (key : PPath) (hw : InvD w) :
    InvD (pwQueueOverflow w key) :=
  InvD_registerReconnectW _ key (InvD_poplinksFrom w key 1 hw)

theorem InvD_foldQueueOverflow (l : List PPath) (w : Watcher) (hw : InvD w) :
    InvD (l.foldl pwQueueOverflow w) := by
  induction l generalizing w with
  | nil => exact hw
  | cons a t ih =>
    rw [List.foldl_cons]
    exact ih _ (InvD_pwQueueOverflow w a hw)

theorem InvD_watcherQueueOverflow (w : Watcher) (hw : InvD w) :
    InvD (watcherQueueOverflow w) := InvD_foldQueueOverflow _ w hw

theorem InvD_doReconnectGo (env : Env) (l : List PPath) (w : Watcher) (hw : InvD w) :
    InvD (doReconnectGo env l w).1 := by
  induction l generalizing w with
  | nil => exact hw
  | cons a t ih =>
    have hstep : InvD (pwReconnect env w a).1 := InvD_pwReconnect env w a hw
    cases hr : pwReconnect env w a with
    | mk w1 e1 =>
      rw [hr] at hstep
      cases e1 with
      | some e =>
        rw [show (doReconnectGo env (a :: t) w).1 = w1 from by
          simp [doReconnectGo, hr]]
        exact hstep
      | none =>
        rw [show doReconnectGo env (a :: t) w = doReconnectGo env t w1 from by
          simp [doReconnectGo, hr]]
        exact ih w1 hstep

theorem InvD_doReconnectW (env : Env) (w : Watcher) (hw : InvD w) :
    InvD (doReconnectW env w) :=
  InvD_doReconnectGo env _ _ (InvD_congrD w _ rfl rfl rfl hw)

theorem InvD_pwHandleEvent (w : Watcher) (key : PPath) (link : Link) (ev : RawEvent)
    (hw : InvD w) : InvD (pwHandleEvent w key link ev).1 := by
  cases hpw : alGet w.paths key with
  | none => simpa [pwHandleEvent, hpw] using hw
  | some pw =>
    by_cases hleaf : pw.watch_complete = 2 ∧ link.idx = pw.links.length - 1
    · by_cases hign : ev.mask &&& IN_IGNORED ≠ 0
      · by_cases hunm : ev.mask &&& IN_UNMOUNT ≠ 0
        · simpa [pwHandleEvent, hpw, hleaf, hign, hunm] using
            InvD_registerReconnectW _ key (InvD_poplinksFrom w key link.idx hw)
        · simpa [pwHandleEvent, hpw, hleaf, hign, hunm] using
            InvD_poplinksFrom w key link.idx hw
      · simpa [pwHandleEvent, hpw, hleaf, hign] using hw
    · by_cases hheal : ev.mask &&& (IN_MOVED_TO ||| IN_CREATE ||| IN_UNMOUNT) ≠ 0
      · simpa [pwHandleEvent, hpw, hleaf, hheal] using
          InvD_registerReconnectW _ key (InvD_poplinksFrom w key _ hw)
      · simpa [pwHandleEvent, hpw, hleaf, hheal] using InvD_poplinksFrom w key _ hw

theorem InvD_dispatchOne (ev : RawEvent) (acc : Watcher × List EventOut) (e : CbEntry)
    (hw : InvD acc.1) : InvD (dispatchOne ev acc e).1 := by
  unfold dispatchOne
  split
  · exact hw
  · split
    · exact hw
    · split
      · exact hw
      · split
        · exact hw
        · exact InvD_pwHandleEvent acc.1 e.watchKey _ ev hw

theorem InvD_dispatchOne_fold (ev : RawEvent) (snap : List CbEntry)
    (acc : Watcher × List EventOut) (hw : InvD acc.1) :
    InvD (snap.foldl (dispatchOne ev) acc).1 := by
  induction snap generalizing acc with
  | nil => exact hw
  | cons e t ih =>
    rw [List.foldl_cons]
    exact ih _ (InvD_dispatchOne ev acc e hw)

theorem InvD_descrHandleEvent (w : Watcher) (ev : RawEvent)
    (hig : ev.mask &&& IN_IGNORED = 0) (hw : InvD w) :
    InvD (descrHandleEvent w ev).1 := by
  have hig2 : ¬ ev.mask &&& IN_IGNORED ≠ 0 := by simp [hig]
  cases hd : alGet w.descrs ev.wd with
  | none =>
    rw [show descrHandleEvent w ev = (w, []) from by simp [descrHandleEvent, hd]]
    exact hw
  | some d =>
    simp only [descrHandleEvent, hd]
    simp only [if_neg hig2]
    apply InvD_dispatchOne_fold
    exact InvD_congrD w _ (alSet_self_eq w.descrs ev.wd d hd) rfl rfl hw

/-- **C6 (amended).** After each public mutating operation — `add`,
`update`, `remove`, dispatch of a non-`IN_IGNORED` event, a queue
overflow, and a reconnection pass — every descriptor's union-mask is a
bit-superset of each registered link's mask (equality can fail after
`remove_link`, which never recomputes the mask), all tabled descriptors
are kernel-active with a consistent watch id, and the number of
descriptors with an empty link set equals the pending-`IN_IGNORED`
counter, so an emptied descriptor stays in the table only while its
kernel removal is being acknowledged. -/
theorem c6_descriptor_mask_upper_bound (env : Env) (w : Watcher) (hw : InvD w) :
    (∀ p m rc, InvD (watcherAdd env w p m rc).2) ∧
    (∀ key nm rc, InvD (watcherUpdate env w key nm rc)) ∧
    (∀ key, InvD (watcherRemove w key)) ∧
    (∀ ev, ev.mask &&& IN_IGNORED = 0 → InvD (descrHandleEvent w ev).1) ∧
    InvD (watcherQueueOverflow w) ∧
    InvD (doReconnectW env w) := by
  refine ⟨?_, ?_, ?_, ?_, ?_, ?_⟩
  · intro p m rc
    exact InvD_watcherAdd env w p m rc hw
  · intro key nm rc
    exact InvD_pwUpdate env w key nm rc hw
  · intro key
    exact InvD_watcherRemove w key hw
  · intro ev hig
    exact InvD_descrHandleEvent w ev hig hw
  · exact InvD_watcherQueueOverflow w hw
  · exact InvD_doReconnectW env w hw

/-- Witness for the amended C6, applied to the empty watcher and the
`add` conjunct at the concrete `testfile` fixture. -/
theorem c6_descriptor_mask_upper_bound_witness :
    InvD (watcherAdd envA emptyWatcher pTestfile IN_OPEN none).2 :=
  (c6_descriptor_mask_upper_bound envA emptyWatcher
    ⟨fun wd d hget => by simp [emptyWatcher, alGet] at hget,
     rfl,
     fun e he => by simp [emptyWatcher] at he,
     fun kd hkd => by simp [emptyWatcher] at hkd,
     fun e he => by simp [emptyWatcher] at he⟩).1 pTestfile IN_OPEN none

/-! ## C9: the leaf rotation of `update` on a FULLY_WATCHED path -/

theorem removeFirstBy_append_singleton {α : Type} (p : α → Bool) (l : List α) (a : α)
    (ha : p a = false) : removeFirstBy p (l ++ [a]) = removeFirstBy p l ++ [a] := by
  induction l with
  | nil => simp [removeFirstBy, ha]
  | cons b t ih =>
    by_cases hb : p b = true
    · simp [removeFirstBy, hb]
    · simp [removeFirstBy, hb, ih]

/-- `remove_link` does not signal an empty watch when an entry survives
under the link's name. -/
theorem linkRemoveW_no_signal (w : Watcher) (link : Link) (wd : Nat) (d : Descriptor)
    (entries : List CbEntry) (hwd : link.wd = some wd)
    (hd : alGet w.descrs wd = some d)
    (hcb : alGet d.callbacks link.name = some entries)
    (hne : removeFirstBy (fun e => e.lid = link.lid) entries ≠ []) :
    linkRemoveW w link = { w with descrs := alSet w.descrs wd { d with callbacks := alSet d.callbacks link.name (removeFirstBy (fun e => e.lid = link.lid) entries) } } := by
  have h2 := alSet_ne_nil d.callbacks link.name
    (removeFirstBy (fun e => e.lid = link.lid) entries)
  simp [linkRemoveW, hwd, hd, hcb, hne, h2]

/-- **C9 (amended).** `update(newmask)` on a FULLY_WATCHED path whose
leaf re-registers at the same kernel watch descriptor issues no kernel
`remove_watch` (the removal log, the pending-ignored counter and the
kernel state are unchanged), keeps the shared descriptor's link set
non-empty throughout (the replacement leaf is registered before the old
leaf is removed), and touches no other descriptor; the shared
descriptor's union-mask however widens to `old ∨ new` — the descriptor
table is NOT unchanged, contrary to the original claim. -/
theorem c9_leaf_rotation_shares_descriptor (env : Env) (w : Watcher) (key : PPath)
    (newmask : Nat) (rc : Option Bool) (pw : PathWatch) (old : Link) (wd : Nat)
    (d : Descriptor)
    (hpw : alGet w.paths key = some pw)
    (hwc : pw.watch_complete = 2)
    (hnm : newmask ≠ 0)
    (hlast : pw.links.getLast? = some old)
    (hname : old.name = none)
    (hwd : old.wd = some wd)
    (hk : alGet w.kernel.table (osNorm (ppDen env.cwdN old.path)) = some wd)
    (hd : alGet w.descrs wd = some d)
    (hlid : old.lid ≠ w.nextLid) :
    (watcherUpdate env w key newmask rc).removeLog = w.removeLog ∧
    (watcherUpdate env w key newmask rc).pending = w.pending ∧
    (watcherUpdate env w key newmask rc).kernel = w.kernel ∧
    (∃ d3, alGet (watcherUpdate env w key newmask rc).descrs wd = some d3 ∧
      d3.mask = d.mask ||| pwUpdateMask pw.mask newmask ∧ d3.callbacks ≠ []) ∧
    (∀ wd2, wd2 ≠ wd →
      alGet (watcherUpdate env w key newmask rc).descrs wd2 = alGet w.descrs wd2) := by
  obtain ⟨c, hc⟩ : ∃ c, updCwd env pw rc = { pw with cwd := c } := by
    cases rc with
    | none => exact ⟨pw.cwd, rfl⟩
    | some b =>
      cases b with
      | false => exact ⟨none, rfl⟩
      | true => exact ⟨some env.cwdN, rfl⟩
  have h1 : watcherUpdate env w key newmask rc = linkRemoveW (addLeafW env (setPW (setPW w key ⟨pw.path, pwUpdateMask pw.mask newmask, pw.links, pw.watch_complete, c⟩) key ⟨pw.path, pwUpdateMask pw.mask newmask, pw.links.dropLast, pw.watch_complete, c⟩) key old.path) old := by
    simp only [watcherUpdate, pwUpdate, hpw, hc, if_neg hnm]
    rw [if_pos hwc]
    simp only [hlast]
  rw [h1]
  set nm2 := pwUpdateMask pw.mask newmask with hnm2
  set W4 := setPW (setPW w key (⟨pw.path, nm2, pw.links, pw.watch_complete, c⟩ : PathWatch)) key (⟨pw.path, nm2, pw.links.dropLast, pw.watch_complete, c⟩ : PathWatch) with hW4
  set W5 := addLeafW env W4 key old.path with hW5
  have ha : W5.descrs = alSet w.descrs wd (descrRegister d none ⟨key, w.nextLid, nm2⟩) := by
    rw [hW5, hW4]
    simp [addLeafW, addLinkW, createwatch, kernelAddWatch, setPW, alGet_alSet_self, hk, hd]
  have hb : W5.kernel = w.kernel := by
    rw [hW5, hW4]
    simp [addLeafW, addLinkW, createwatch, kernelAddWatch, setPW, alGet_alSet_self, hk, hd]
  have hcp : W5.pending = w.pending := by
    rw [hW5, hW4]
    simp [addLeafW, addLinkW, createwatch, kernelAddWatch, setPW, alGet_alSet_self, hk, hd]
  have hdl : W5.removeLog = w.removeLog := by
    rw [hW5, hW4]
    simp [addLeafW, addLinkW, createwatch, kernelAddWatch, setPW, alGet_alSet_self, hk, hd]
  have hd5 : alGet W5.descrs wd = some (descrRegister d none ⟨key, w.nextLid, nm2⟩) := by
    rw [ha]
    exact alGet_alSet_self _ _ _
  have hcb5 : alGet (descrRegister d none ⟨key, w.nextLid, nm2⟩).callbacks old.name = some ((alGet d.callbacks none).getD [] ++ [⟨key, w.nextLid, nm2⟩]) := by
    rw [hname]
    unfold descrRegister
    exact alGet_alSet_self _ _ _
  have hne5 : removeFirstBy (fun e => e.lid = old.lid) ((alGet d.callbacks none).getD [] ++ [(⟨key, w.nextLid, nm2⟩ : CbEntry)]) ≠ [] := by
    rw [removeFirstBy_append_singleton _ _ _ (by simp; exact fun hh => hlid hh.symm)]
    simp
  rw [linkRemoveW_no_signal W5 old wd (descrRegister d none ⟨key, w.nextLid, nm2⟩) ((alGet d.callbacks none).getD [] ++ [⟨key, w.nextLid, nm2⟩]) hwd hd5 hcb5 hne5]
  refine ⟨hdl, hcp, hb, ⟨{ descrRegister d none ⟨key, w.nextLid, nm2⟩ with callbacks := alSet (descrRegister d none ⟨key, w.nextLid, nm2⟩).callbacks old.name (removeFirstBy (fun e => e.lid = old.lid) ((alGet d.callbacks none).getD [] ++ [⟨key, w.nextLid, nm2⟩])) }, ?_, ?_, ?_⟩, ?_⟩
  · exact alGet_alSet_self _ _ _
  · rfl
  · exact alSet_ne_nil _ _ _
  · intro wd2 hne2
    rw [alGet_alSet_ne _ _ _ _ (fun hh => hne2 hh.symm), ha,
      alGet_alSet_ne _ _ _ _ (fun hh => hne2 hh.symm)]

/-- **C9, counterexample to the original claim.** The update does change
the descriptor table: after `update('testfile', IN_CLOSE_NOWRITE)` on the
fully-watched `testfile` fixture, the shared leaf descriptor's union-mask
has widened from `IN_OPEN` to `IN_OPEN ||| IN_CLOSE_NOWRITE` (and its
callback entry is the replacement link), so the table is not unchanged. -/
theorem c9_counterexample :
    alGet (watcherUpdate envA wTestfile pTestfile IN_CLOSE_NOWRITE none).descrs 2 ≠
      alGet wTestfile.descrs 2 := by decide

/-- Witness for the amended C9 at the concrete `testfile` fixture. -/
theorem c9_leaf_rotation_shares_descriptor_witness :
    (watcherUpdate envA wTestfile pTestfile IN_CLOSE_NOWRITE none).removeLog =
      wTestfile.removeLog :=
  (c9_leaf_rotation_shares_descriptor envA wTestfile pTestfile IN_CLOSE_NOWRITE none
    pwTF ⟨1, 1, IN_OPEN, ⟨true, ["home", "testfile"]⟩, none, [], none, some 2⟩ 2
    ⟨2, IN_OPEN, true, [(none, [⟨pTestfile, 1, IN_OPEN⟩])]⟩
    (by decide) (by decide) (by decide) (by decide) (by decide) (by decide)
    (by decide) (by decide) (by decide)).1

end PathWatcherModel
